import Mathlib

/-!
Verification of the Huffman codec implemented in `Huffman_Code_Final.py`.

The embedding models the codec at the level of decoded values: a document is a
`List Char` (a Python `str`), an artifact is a `List Nat` (a Python `bytes`
object, one entry per byte, each below 256), and bitstrings are `List Char`
over the characters `'0'` and `'1'`, exactly as the source manipulates them.
The priority queue is the CPython `heapq` algorithm (heapify, heappush,
heappop with `_siftup` and `_siftdown`), translated function by function, with
`BinaryTree.__lt__` comparing frequencies.  Python dictionaries are modelled
as association lists with update-in-place-or-append semantics, which preserves
the insertion order that `Counter`, `json.dumps` and `json.loads` all keep.
-/

namespace Huffman

/-- Set of characters stripped by Python `str.rstrip()` with no argument
(Unicode whitespace as recognised by `str.isspace`). -/
def isPySpace (c : Char) : Bool :=
  decide (c = ' ' ∨ c = '\t' ∨ c = '\n' ∨ c = '\r' ∨ c = '\x0b' ∨ c = '\x0c' ∨
    (0x1c ≤ c.toNat ∧ c.toNat ≤ 0x1f) ∨ c.toNat = 0x85 ∨ c.toNat = 0xa0 ∨
    c.toNat = 0x1680 ∨ (0x2000 ≤ c.toNat ∧ c.toNat ≤ 0x200a) ∨ c.toNat = 0x2028 ∨
    c.toNat = 0x2029 ∨ c.toNat = 0x202f ∨ c.toNat = 0x205f ∨ c.toNat = 0x3000)

/-- Models `text.rstrip()` from `compress` (line 107 of the source). -/
def rstrip (l : List Char) : List Char :=
  (l.reverse.dropWhile isPySpace).reverse

/-- Models the Python format `f"{n:08b}"` (and `format(byte, "08b")`) for the
width `w`: the `w` low binary digits of `n`, most significant first.  Every
use in the codec has `n` below `2 ^ w`, where this agrees with Python. -/
def natToBits : Nat → Nat → List Char
  | 0, _ => []
  | w + 1, n => natToBits w (n / 2) ++ [if n % 2 = 1 then '1' else '0']

/-- Models Python `int(s, 2)` on strings of binary digits: every use in the
codec applies it to strings over the characters `'0'` and `'1'`. -/
def bitsToNat (l : List Char) : Nat :=
  l.foldl (fun a c => 2 * a + (if c = '1' then 1 else 0)) 0

/-- Node of the Huffman tree, class `BinaryTree` of the source.  A `leaf`
carries a character (`value is not None`); internal nodes carry `None` and in
this program always own two children, so the embedding stores them
structurally. -/
inductive BTree where
  | leaf (value : Char) (frequency : Nat) : BTree
  | node (frequency : Nat) (left : BTree) (right : BTree) : BTree
  deriving DecidableEq, Repr

instance : Inhabited BTree := ⟨BTree.leaf 'a' 0⟩

/-- Frequency stored in a tree node. -/
def BTree.frequency : BTree → Nat
  | .leaf _ f => f
  | .node f _ _ => f

/-- Characters sitting at the leaves of a tree, left to right. -/
def leafValues : BTree → List Char
  | .leaf v _ => [v]
  | .node _ l r => leafValues l ++ leafValues r

/-- Characters at the leaves of all trees of a heap. -/
def joinLeaves (hs : List BTree) : List Char :=
  (hs.map leafValues).flatten

/-- Loop of CPython `heapq._siftdown(heap, startpos, pos)`: `newitem` is the
value read from index `pos` before the loop; entries on the parent chain are
shifted down until the right slot for `newitem` is found.  The fuel is an
upper bound on the iteration count (`pos` strictly decreases). -/
def siftdownLoop : Nat → List BTree → Nat → BTree → Nat → List BTree
  | 0, l, _, newitem, pos => l.set pos newitem
  | fuel + 1, l, startpos, newitem, pos =>
    if startpos < pos then
      let parentpos := (pos - 1) / 2
      let parent := l.getD parentpos default
      if newitem.frequency < parent.frequency then
        siftdownLoop fuel (l.set pos parent) startpos newitem parentpos
      else
        l.set pos newitem
    else
      l.set pos newitem

/-- CPython `heapq._siftdown(heap, startpos, pos)`. -/
def siftdown (l : List BTree) (startpos pos : Nat) : List BTree :=
  siftdownLoop pos l startpos (l.getD pos default) pos

/-- Loop of CPython `heapq._siftup(heap, pos)`: the smaller child is moved up
repeatedly; when the bottom is reached `newitem` is stored there and
`_siftdown` restores the invariant.  The fuel (list length) bounds the
iteration count since the position strictly increases below the length. -/
def siftupLoop : Nat → List BTree → Nat → BTree → Nat → List BTree
  | 0, l, startpos, newitem, pos => siftdownLoop pos (l.set pos newitem) startpos newitem pos
  | fuel + 1, l, startpos, newitem, pos =>
    let endpos := l.length
    let childpos := 2 * pos + 1
    if childpos < endpos then
      let rightpos := childpos + 1
      let childpos :=
        if rightpos < endpos ∧
            ¬ (l.getD childpos default).frequency < (l.getD rightpos default).frequency then
          rightpos
        else childpos
      siftupLoop fuel (l.set pos (l.getD childpos default)) startpos newitem childpos
    else
      siftdownLoop pos (l.set pos newitem) startpos newitem pos

/-- CPython `heapq._siftup(heap, pos)`. -/
def siftup (l : List BTree) (pos : Nat) : List BTree :=
  siftupLoop l.length l pos (l.getD pos default) pos

/-- CPython `heapq.heappush`: append then sift down from the last index. -/
def heappush (l : List BTree) (item : BTree) : List BTree :=
  siftdown (l ++ [item]) 0 l.length

/-- CPython `heapq.heappop`: remove the last element; if the heap is still
non-empty, the root is returned and the last element is sifted into place. -/
def heappop : List BTree → Option (BTree × List BTree)
  | [] => none
  | x :: xs =>
    let lastelt := (x :: xs).getLastD default
    match (x :: xs).dropLast with
    | [] => some (lastelt, [])
    | y :: ys => some (y, siftup ((y :: ys).set 0 lastelt) 0)

/-- CPython `heapq.heapify`: sift up every index below `n / 2`, last first. -/
def heapify (l : List BTree) : List BTree :=
  ((List.range (l.length / 2)).reverse).foldl (fun h i => siftup h i) l

/-- Models Python dictionary lookup `d[k]` (as an `Option`).  The association
lists built by `dictSet` have unique keys, and `dictGet` returns the value of
the first matching key. -/
def dictGet {α β : Type} [DecidableEq α] : List (α × β) → α → Option β
  | [], _ => none
  | (k, v) :: t, key => if k = key then some v else dictGet t key

/-- Models Python dictionary assignment `d[k] = v`: an existing key keeps its
position and gets the new value, a new key is appended at the end, exactly
the insertion-order semantics of CPython dictionaries. -/
def dictSet {α β : Type} [DecidableEq α] : List (α × β) → α → β → List (α × β)
  | [], key, val => [(key, val)]
  | (k, v) :: t, key, val =>
    if k = key then (key, val) :: t else (k, v) :: dictSet t key val

/-- Sequence of dictionary assignments, first pair first. -/
def insertAll {α β : Type} [DecidableEq α] (st : List (α × β)) (ps : List (α × β)) :
    List (α × β) :=
  ps.foldl (fun d p => dictSet d p.1 p.2) st

/-- Counting step of `Counter`: `mapping[elem] = mapping.get(elem, 0) + 1`. -/
def freqStep (d : List (Char × Nat)) (c : Char) : List (Char × Nat) :=
  match dictGet d c with
  | some n => dictSet d c (n + 1)
  | none => dictSet d c 1

/-- Models `__frequency_from_text`, i.e. `Counter(text)`: one pass over the
text incrementing a per-character counter, keys in first-occurrence order. -/
def frequency_from_text (text : List Char) : List (Char × Nat) :=
  text.foldl freqStep []

/-- Models `__build_heap`: one `BinaryTree` leaf per dictionary entry, in
order, then `heapq.heapify`. -/
def build_heap (frequency_dict : List (Char × Nat)) : List BTree :=
  heapify (frequency_dict.map fun p => BTree.leaf p.1 p.2)

/-- Loop of `__build_binary_tree`: while the heap has more than one tree, pop
the two smallest, merge them into an internal node (first pop on the left)
and push the sum node back.  The fuel (initial length) bounds the number of
iterations since every iteration shrinks the heap by one. -/
def buildTreeLoop : Nat → List BTree → List BTree
  | 0, heap => heap
  | fuel + 1, heap =>
    if 1 < heap.length then
      match heappop heap with
      | some (node1, h1) =>
        match heappop h1 with
        | some (node2, h2) =>
          buildTreeLoop fuel
            (heappush h2 (BTree.node (node1.frequency + node2.frequency) node1 node2))
        | none => h1
      | none => heap
    else heap

/-- Models `__build_binary_tree`. -/
def build_binary_tree (heap : List BTree) : List BTree :=
  buildTreeLoop heap.length heap

/-- Forward code table, `self.__code`: character to bitstring. -/
abbrev CodeDict := List (Char × List Char)

/-- Reverse code table, `self.__reversecode`: bitstring to character. -/
abbrev RevDict := List (List Char × Char)

/-- Models `__build_tree_code_helper`: pre-order traversal accumulating the
path bits, assigning `"0"` when a single leaf is the root (empty path). -/
def build_tree_code_helper : BTree → List Char → CodeDict × RevDict → CodeDict × RevDict
  | .leaf v _, currBits, st =>
    let bits := if currBits = [] then ['0'] else currBits
    (dictSet st.1 v bits, dictSet st.2 bits v)
  | .node _ left right, currBits, st =>
    build_tree_code_helper right (currBits ++ ['1'])
      (build_tree_code_helper left (currBits ++ ['0']) st)

/-- Pure view of the pairs recorded by `__build_tree_code_helper`, in
traversal order. -/
def leafCodes : BTree → List Char → List (Char × List Char)
  | .leaf v _, currBits => [(v, if currBits = [] then ['0'] else currBits)]
  | .node _ left right, currBits =>
    leafCodes left (currBits ++ ['0']) ++ leafCodes right (currBits ++ ['1'])

/-- Composition `__build_heap`, `__build_binary_tree`, `__build_tree_code` on
a fresh instance: `none` corresponds to the `ValueError` raised on an empty
heap by `__build_tree_code`. -/
def huffmanTables (frequency_dict : List (Char × Nat)) : Option (CodeDict × RevDict) :=
  match heappop (build_binary_tree (build_heap frequency_dict)) with
  | none => none
  | some (root, _) => some (build_tree_code_helper root [] ([], []))

/-- Models `__build_encoded_text`: concatenation of the code of every
character.  A missing key, which would raise `KeyError` in Python, yields
`none`; it cannot occur in the compress flow. -/
def build_encoded_text (code : CodeDict) : List Char → Option (List Char)
  | [] => some []
  | c :: t =>
    match dictGet code c, build_encoded_text code t with
    | some b, some e => some (b ++ e)
    | _, _ => none

/-- Models `__build_padded_text`: 8-bit pad header, encoded bits, pad
zero-bits. -/
def build_padded_text (encoded_text : List Char) : List Char :=
  let padding_value := (8 - encoded_text.length % 8) % 8
  natToBits 8 padding_value ++ encoded_text ++ List.replicate padding_value '0'

/-- Fueled eight-bit chunking used by `build_byte_array`. -/
def buildByteArrayAux : Nat → List Char → List Nat
  | 0, _ => []
  | _ + 1, [] => []
  | fuel + 1, c :: rest =>
    bitsToNat ((c :: rest).take 8) :: buildByteArrayAux fuel ((c :: rest).drop 8)

/-- Models `__build_byte_array`: one byte per 8-bit chunk, left to right. -/
def build_byte_array (padded_text : List Char) : List Nat :=
  buildByteArrayAux padded_text.length padded_text

/-- Models `__remove_padding`: read the 8-bit pad header, drop it, and strip
that many trailing bits (none when the header is zero). -/
def remove_padding (text : List Char) : List Char :=
  if bitsToNat (text.take 8) = 0 then text.drop 8
  else (text.drop 8).take ((text.drop 8).length - bitsToNat (text.take 8))

/-- Loop of `__decode_text`: grow the bit buffer; whenever it matches a key
of the reverse table, emit the mapped character and reset the buffer.  A
trailing unmatched buffer is silently discarded, as in the source. -/
def decodeGo (reversecode : RevDict) : List Char → List Char → List Char
  | _, [] => []
  | currentBits, bit :: rest =>
    let buf := currentBits ++ [bit]
    match dictGet reversecode buf with
    | some ch => ch :: decodeGo reversecode [] rest
    | none => decodeGo reversecode buf rest

/-- Models `__decode_text`. -/
def decode_text (reversecode : RevDict) (text : List Char) : List Char :=
  decodeGo reversecode [] text

/-- Hexadecimal digit as printed by Python `%04x` (lower case). -/
def hexDigitChar (d : Nat) : Char :=
  if d < 10 then Char.ofNat (48 + d) else Char.ofNat (87 + d)

/-- Four-digit lower-case hexadecimal rendering of `n`, Python `"%04x" % n`,
for `n` below `0x10000`. -/
def natToHex4 (n : Nat) : List Char :=
  [hexDigitChar (n / 4096 % 16), hexDigitChar (n / 256 % 16),
   hexDigitChar (n / 16 % 16), hexDigitChar (n % 16)]

/-- Escaping of one character inside a JSON string as produced by
`json.dumps` with its default `ensure_ascii=True`: short escapes for the
common control characters, backslash and quote, `\uXXXX` for other
non-printable or non-ASCII characters, surrogate pairs above `0xffff`. -/
def escapeChar (c : Char) : List Char :=
  if c = '"' then ['\\', '"']
  else if c = '\\' then ['\\', '\\']
  else if c = '\n' then ['\\', 'n']
  else if c = '\r' then ['\\', 'r']
  else if c = '\t' then ['\\', 't']
  else if c = '\x08' then ['\\', 'b']
  else if c = '\x0c' then ['\\', 'f']
  else if c.toNat < 0x20 then '\\' :: 'u' :: natToHex4 c.toNat
  else if c.toNat ≤ 0x7e then [c]
  else if c.toNat ≤ 0xffff then '\\' :: 'u' :: natToHex4 c.toNat
  else
    '\\' :: 'u' :: natToHex4 (0xd800 + (c.toNat - 0x10000) / 0x400) ++
      '\\' :: 'u' :: natToHex4 (0xdc00 + (c.toNat - 0x10000) % 0x400)

/-- Fueled decimal rendering of a natural number. -/
def natToDecAux : Nat → Nat → List Char
  | 0, _ => []
  | fuel + 1, n =>
    if n < 10 then [Char.ofNat (48 + n)]
    else natToDecAux fuel (n / 10) ++ [Char.ofNat (48 + n % 10)]

/-- Decimal rendering of a natural number, Python `str(n)`. -/
def natToDec (n : Nat) : List Char := natToDecAux (n + 1) n

/-- Rendering of one dictionary entry by `json.dumps`: `"key": value`. -/
def serEntry (p : Char × Nat) : List Char :=
  '"' :: escapeChar p.1 ++ '"' :: ':' :: ' ' :: natToDec p.2

/-- Comma-separated dictionary entries as joined by `json.dumps`. -/
def serEntries : List (Char × Nat) → List Char
  | [] => []
  | [p] => serEntry p
  | p :: q :: rest => serEntry p ++ ',' :: ' ' :: serEntries (q :: rest)

/-- Models `json.dumps(frequency_dict)` with default settings, on the
single-character string keys and positive integer values produced by
`Counter`: ASCII text, insertion order preserved. -/
def serializeFreq (frequency_dict : List (Char × Nat)) : List Char :=
  '{' :: serEntries frequency_dict ++ ['}']

/-- Value of a hexadecimal digit accepted by the JSON escape parser. -/
def parseHexDigit (c : Char) : Option Nat :=
  if '0' ≤ c ∧ c ≤ '9' then some (c.toNat - 48)
  else if 'a' ≤ c ∧ c ≤ 'f' then some (c.toNat - 87)
  else if 'A' ≤ c ∧ c ≤ 'F' then some (c.toNat - 55)
  else none

/-- Reads four hexadecimal digits, as in a JSON `\uXXXX` escape. -/
def parseU4 : List Char → Option (Nat × List Char)
  | h1 :: h2 :: h3 :: h4 :: rest =>
    match parseHexDigit h1, parseHexDigit h2, parseHexDigit h3, parseHexDigit h4 with
    | some a, some b, some c, some d => some (((a * 16 + b) * 16 + c) * 16 + d, rest)
    | _, _, _, _ => none
  | _ => none

/-- Reads one character of a JSON string body, undoing `escapeChar`:
literal characters, short escapes, `\uXXXX` and surrogate pairs. -/
def parseEscChar : List Char → Option (Char × List Char)
  | [] => none
  | c :: rest =>
    if c = '\\' then
      match rest with
      | [] => none
      | e :: rest1 =>
        if e = 'u' then
          match parseU4 rest1 with
          | none => none
          | some (n, rest2) =>
            if 0xd800 ≤ n ∧ n ≤ 0xdbff then
              match rest2 with
              | b1 :: b2 :: rest3 =>
                if b1 = '\\' ∧ b2 = 'u' then
                  match parseU4 rest3 with
                  | none => none
                  | some (m, rest4) =>
                    if 0xdc00 ≤ m ∧ m ≤ 0xdfff then
                      some (Char.ofNat (0x10000 + (n - 0xd800) * 0x400 + (m - 0xdc00)), rest4)
                    else none
                else none
              | _ => none
            else if 0xdc00 ≤ n ∧ n ≤ 0xdfff then none
            else some (Char.ofNat n, rest2)
        else if e = '"' then some ('"', rest1)
        else if e = '\\' then some ('\\', rest1)
        else if e = '/' then some ('/', rest1)
        else if e = 'b' then some ('\x08', rest1)
        else if e = 'f' then some ('\x0c', rest1)
        else if e = 'n' then some ('\n', rest1)
        else if e = 'r' then some ('\r', rest1)
        else if e = 't' then some ('\t', rest1)
        else none
    else if c = '"' ∨ c.toNat < 0x20 then none
    else some (c, rest)

/-- Models Python `int` reading of a run of decimal digits. -/
def decToNat (l : List Char) : Nat :=
  l.foldl (fun a c => 10 * a + (c.toNat - 48)) 0

/-- Reads a non-empty run of decimal digits. -/
def parseNatTok (l : List Char) : Option (Nat × List Char) :=
  let ds := l.takeWhile (fun c => c.isDigit)
  if ds = [] then none else some (decToNat ds, l.dropWhile (fun c => c.isDigit))

/-- Reads the comma-separated `"key": value` entries of a serialized
frequency dictionary up to the closing brace.  The fuel (input length)
bounds the number of entries. -/
def parsePairs : Nat → List Char → Option (List (Char × Nat))
  | 0, _ => none
  | fuel + 1, l =>
    match l with
    | [] => none
    | c0 :: rest =>
      if c0 = '"' then
        match parseEscChar rest with
        | none => none
        | some (k, r1) =>
          match r1 with
          | a :: b :: c2 :: r2 =>
            if a = '"' ∧ b = ':' ∧ c2 = ' ' then
              match parseNatTok r2 with
              | none => none
              | some (v, r3) =>
                match r3 with
                | [] => none
                | d :: r4 =>
                  if d = ',' then
                    match r4 with
                    | [] => none
                    | e :: r5 =>
                      if e = ' ' then
                        match parsePairs fuel r5 with
                        | none => none
                        | some tail => some ((k, v) :: tail)
                      else none
                  else if d = '}' ∧ r4 = [] then some [(k, v)]
                  else none
            else none
          | _ => none
      else none

/-- Models `json.loads` restricted to the object grammar that `serializeFreq`
emits (which is the only metadata `compress` ever writes); `json.loads`
accepts further spellings of the same data, none of which occur in artifacts
produced by `compress`. -/
def parseFreqChars : List Char → Option (List (Char × Nat))
  | [] => none
  | c :: rest =>
    if c = '{' then
      match rest with
      | [] => none
      | d :: rest2 => if d = '}' ∧ rest2 = [] then some [] else parsePairs rest.length rest
    else none

/-- Models `frequency_data.decode("utf-8")` followed by `json.loads`: the
metadata written by `compress` is pure ASCII, so the embedding decodes ASCII
bytes only; any failure corresponds to the `ValueError` raised by
`decompress`. -/
def parseFreqBytes (bytes : List Nat) : Option (List (Char × Nat)) :=
  if bytes.all (fun b => b < 128) then parseFreqChars (bytes.map fun b => Char.ofNat b)
  else none

/-- Models `compress` (lines 99 to 124) on a given document content, with the
instance state `self.__code`, `self.__reversecode` carried in from earlier
calls (a fresh instance has `([], [])`).  The result is the byte content of
the output artifact, or the message of the `ValueError` raised. -/
def compressFrom (st : CodeDict × RevDict) (text0 : List Char) : Except String (List Nat) :=
  let text := rstrip text0
  if text = [] then .error "Error: Input file is empty!"
  else
    let frequency_dict := frequency_from_text text
    let heap := build_binary_tree (build_heap frequency_dict)
    match heappop heap with
    | none => .error "Error: Huffman heap is empty!"
    | some (root, _) =>
      let st1 := build_tree_code_helper root [] st
      match build_encoded_text st1.1 text with
      | none => .error "KeyError"
      | some encoded_text =>
        let padded_text := build_padded_text encoded_text
        .ok ((serializeFreq frequency_dict).map Char.toNat ++ 10 :: build_byte_array padded_text)

/-- Models `compress` on a fresh `HuffmanCode` instance. -/
def compress (text : List Char) : Except String (List Nat) :=
  compressFrom ([], []) text

/-- Models `decompress` (lines 145 to 182) on the byte content of an
artifact, on a fresh instance: scan to the first newline byte, parse the
frequency dictionary, rebuild heap, tree and code tables, expand the
remaining bytes to bits, remove the padding and decode. -/
def decompress (data : List Nat) : Except String (List Char) :=
  let frequency_data := data.takeWhile (fun b => b ≠ 10)
  match parseFreqBytes frequency_data with
  | none => .error "Error parsing frequency dictionary"
  | some frequency_dict =>
    let heap := build_binary_tree (build_heap frequency_dict)
    match heappop heap with
    | none => .error "Error: Huffman heap is empty!"
    | some (root, _) =>
      let st := build_tree_code_helper root [] ([], [])
      let rest := (data.dropWhile (fun b => b ≠ 10)).drop 1
      let bit_string := (rest.map (natToBits 8)).flatten
      if bit_string = [] then .error "Error: No encoded data found in file!"
      else .ok (decode_text st.2 (remove_padding bit_string))

end Huffman

namespace Huffman

/-! ### Generic list lemmas -/

lemma getD_append_length {α : Type} (l : List α) (a d : α) :
    (l ++ [a]).getD l.length d = a := by
  induction l with
  | nil => rfl
  | cons x t ih => simpa using ih

lemma set_getD_self {α : Type} (l : List α) (i : Nat) (d : α) (h : i < l.length) :
    l.set i (l.getD i d) = l := by
  induction l generalizing i with
  | nil => simp at h
  | cons a t ih =>
    cases i with
    | zero => simp
    | succ m =>
      simp only [List.getD_cons_succ, List.set_cons_succ, List.cons.injEq, true_and]
      exact ih m (by simpa using h)

lemma cons_getD_set_perm {α : Type} (t : List α) (j : Nat) (x d : α) (h : j < t.length) :
    List.Perm (t.getD j d :: t.set j x) (x :: t) := by
  induction t generalizing j with
  | nil => simp at h
  | cons b s ih =>
    cases j with
    | zero => simpa using List.Perm.swap x b s
    | succ m =>
      have hm : m < s.length := by simpa using h
      have h1 : List.Perm (s.getD m d :: b :: s.set m x) (b :: s.getD m d :: s.set m x) :=
        List.Perm.swap b (s.getD m d) (s.set m x)
      have h2 : List.Perm (b :: s.getD m d :: s.set m x) (b :: x :: s) :=
        List.Perm.cons b (ih m hm)
      have h3 : List.Perm (b :: x :: s) (x :: b :: s) := List.Perm.swap x b s
      simpa using (h1.trans h2).trans h3

lemma cons_set_swap_perm {α : Type} (t : List α) (i : Nat) (x a : α) (h : i < t.length) :
    List.Perm (x :: t.set i a) (a :: t.set i x) := by
  induction t generalizing i with
  | nil => simp at h
  | cons b s ih =>
    cases i with
    | zero => simpa using List.Perm.swap a x s
    | succ m =>
      have hm : m < s.length := by simpa using h
      have h1 : List.Perm (x :: b :: s.set m a) (b :: x :: s.set m a) :=
        List.Perm.swap b x (s.set m a)
      have h2 : List.Perm (b :: x :: s.set m a) (b :: a :: s.set m x) :=
        List.Perm.cons b (ih m hm)
      have h3 : List.Perm (b :: a :: s.set m x) (a :: b :: s.set m x) :=
        List.Perm.swap a b (s.set m x)
      simpa using (h1.trans h2).trans h3

lemma set_getD_set_perm {α : Type} (l : List α) (i j : Nat) (x d : α)
    (hi : i < l.length) (hj : j < l.length) (hne : i ≠ j) :
    List.Perm ((l.set i (l.getD j d)).set j x) (l.set i x) := by
  induction l generalizing i j with
  | nil => simp at hi
  | cons a t ih =>
    cases i with
    | zero =>
      cases j with
      | zero => exact absurd rfl hne
      | succ m =>
        have hm : m < t.length := by simpa using hj
        simpa using cons_getD_set_perm t m x d hm
    | succ k =>
      cases j with
      | zero =>
        have hk : k < t.length := by simpa using hi
        simpa using cons_set_swap_perm t k x a hk
      | succ m =>
        have hk : k < t.length := by simpa using hi
        have hm : m < t.length := by simpa using hj
        have hkm : k ≠ m := fun hEq => hne (by simp [hEq])
        simpa using List.Perm.cons a (ih k m hk hm hkm)

lemma takeWhile_append_all {α : Type} (p : α → Bool) (A B : List α)
    (h : ∀ a ∈ A, p a) :
    (A ++ B).takeWhile p = A ++ B.takeWhile p := by
  induction A with
  | nil => simp
  | cons a t ih =>
    simp only [List.cons_append, List.takeWhile_cons]
    rw [h a (by simp)]
    simp [ih (fun x hx => h x (by simp [hx]))]

lemma dropWhile_append_all {α : Type} (p : α → Bool) (A B : List α)
    (h : ∀ a ∈ A, p a) :
    (A ++ B).dropWhile p = B.dropWhile p := by
  induction A with
  | nil => simp
  | cons a t ih =>
    simp only [List.cons_append, List.dropWhile_cons]
    rw [h a (by simp)]
    simp [ih (fun x hx => h x (by simp [hx]))]

/-! ### Bit string lemmas -/

lemma length_natToBits (w n : Nat) : (natToBits w n).length = w := by
  induction w generalizing n with
  | zero => rfl
  | succ v ih => simp [natToBits, ih]

lemma bitsToNat_foldl (l : List Char) (a : Nat) :
    l.foldl (fun a c => 2 * a + (if c = '1' then 1 else 0)) a =
      a * 2 ^ l.length + bitsToNat l := by
  induction l generalizing a with
  | nil => simp [bitsToNat]
  | cons c t ih =>
    simp only [List.foldl_cons, bitsToNat]
    rw [ih, ih (2 * 0 + _)]
    simp only [List.length_cons, Nat.pow_succ]
    ring

lemma bitsToNat_cons (c : Char) (t : List Char) :
    bitsToNat (c :: t) = (if c = '1' then 1 else 0) * 2 ^ t.length + bitsToNat t := by
  simp only [bitsToNat, List.foldl_cons]
  simpa using bitsToNat_foldl t (2 * 0 + (if c = '1' then 1 else 0))

lemma bitsToNat_lt (l : List Char) : bitsToNat l < 2 ^ l.length := by
  induction l with
  | nil => simp [bitsToNat]
  | cons c t ih =>
    rw [bitsToNat_cons]
    have hP : 0 < 2 ^ t.length := Nat.pos_pow_of_pos t.length (by norm_num)
    have hlen : (2 : Nat) ^ (c :: t).length = 2 ^ t.length + 2 ^ t.length := by
      simp [Nat.pow_succ]; ring
    rw [hlen]
    split <;> omega

lemma bitsToNat_append (A B : List Char) :
    bitsToNat (A ++ B) = bitsToNat A * 2 ^ B.length + bitsToNat B := by
  simp only [bitsToNat, List.foldl_append]
  exact bitsToNat_foldl B _

lemma bitsToNat_natToBits (w n : Nat) : bitsToNat (natToBits w n) = n % 2 ^ w := by
  induction w generalizing n with
  | zero => simp [natToBits, bitsToNat, Nat.mod_one]
  | succ v ih =>
    simp only [natToBits]
    rw [bitsToNat_append, ih]
    have h2 : bitsToNat [if n % 2 = 1 then '1' else '0'] = n % 2 := by
      rcases Nat.mod_two_eq_zero_or_one n with h | h <;> simp [h, bitsToNat]
    rw [h2]
    have hl : ([if n % 2 = 1 then '1' else '0'] : List Char).length = 1 := by
      split <;> rfl
    rw [hl]
    have hp : (2 : Nat) ^ (v + 1) = 2 * 2 ^ v := by ring
    rw [hp, Nat.mod_mul]
    omega

lemma natToBits_bitsToNat (l : List Char) (hb : ∀ c ∈ l, c = '0' ∨ c = '1') :
    natToBits l.length (bitsToNat l) = l := by
  induction l using List.reverseRecOn with
  | nil => rfl
  | append_singleton t a ih =>
    have hbt : ∀ c ∈ t, c = '0' ∨ c = '1' := fun c hc => hb c (by simp [hc])
    have hba : a = '0' ∨ a = '1' := hb a (by simp)
    have hlen : (t ++ [a]).length = t.length + 1 := by simp
    rw [hlen]
    have hval : bitsToNat (t ++ [a]) = 2 * bitsToNat t + (if a = '1' then 1 else 0) := by
      rw [bitsToNat_append]
      have : bitsToNat [a] = (if a = '1' then 1 else 0) := by
        rcases hba with h | h <;> simp [h, bitsToNat]
      rw [this]
      simp
      ring
    rw [hval]
    have hbit : (if a = '1' then 1 else 0) < 2 := by split <;> omega
    simp only [natToBits]
    have hdiv : (2 * bitsToNat t + (if a = '1' then 1 else 0)) / 2 = bitsToNat t := by omega
    have hmod : (2 * bitsToNat t + (if a = '1' then 1 else 0)) % 2 = (if a = '1' then 1 else 0) := by
      omega
    rw [hdiv, hmod, ih hbt]
    rcases hba with h | h <;> simp [h]

lemma mem_natToBits (w n : Nat) (c : Char) (hc : c ∈ natToBits w n) : c = '0' ∨ c = '1' := by
  induction w generalizing n with
  | zero => simp [natToBits] at hc
  | succ v ih =>
    simp only [natToBits, List.mem_append, List.mem_singleton] at hc
    rcases hc with h | h
    · exact ih _ h
    · subst h; split <;> simp

lemma byteArrayAux_flatten (fuel : Nat) (l : List Char)
    (hfuel : l.length ≤ fuel) (hb : ∀ c ∈ l, c = '0' ∨ c = '1') (h8 : l.length % 8 = 0) :
    ((buildByteArrayAux fuel l).map (natToBits 8)).flatten = l := by
  induction fuel generalizing l with
  | zero =>
    have : l = [] := List.eq_nil_of_length_eq_zero (by omega)
    simp [this, buildByteArrayAux]
  | succ f ih =>
    match l with
    | [] => simp [buildByteArrayAux]
    | c :: rest =>
      have hlen8 : 8 ≤ (c :: rest).length := by
        have : (c :: rest).length ≠ 0 := by simp
        omega
      have htake : ((c :: rest).take 8).length = 8 := by
        rw [List.length_take]; omega
      have hbt : ∀ x ∈ (c :: rest).take 8, x = '0' ∨ x = '1' :=
        fun x hx => hb x (List.mem_of_mem_take hx)
      have hfirst : natToBits 8 (bitsToNat ((c :: rest).take 8)) = (c :: rest).take 8 := by
        have := natToBits_bitsToNat ((c :: rest).take 8) hbt
        rwa [htake] at this
      simp only [buildByteArrayAux, List.map_cons, List.flatten_cons, hfirst]
      have hdlen : ((c :: rest).drop 8).length = (c :: rest).length - 8 := by
        simp [List.length_drop]
      have ihd := ih ((c :: rest).drop 8)
        (by
          have h1 := hfuel
          simp only [List.length_drop, List.length_cons] at h1 ⊢
          omega)
        (fun x hx => hb x (List.mem_of_mem_drop hx)) (by omega)
      rw [ihd, List.take_append_drop]

/-! ### Padding lemmas -/

lemma length_build_padded_text (e : List Char) :
    (build_padded_text e).length = 8 + e.length + (8 - e.length % 8) % 8 := by
  simp [build_padded_text, length_natToBits]
  omega

lemma build_padded_text_take8 (e : List Char) :
    (build_padded_text e).take 8 = natToBits 8 ((8 - e.length % 8) % 8) := by
  simp only [build_padded_text, List.append_assoc]
  have h := List.take_left (natToBits 8 ((8 - e.length % 8) % 8))
    (e ++ List.replicate ((8 - e.length % 8) % 8) '0')
  rwa [length_natToBits] at h

lemma build_padded_text_drop8 (e : List Char) :
    (build_padded_text e).drop 8 = e ++ List.replicate ((8 - e.length % 8) % 8) '0' := by
  simp only [build_padded_text, List.append_assoc]
  have h := List.drop_left (natToBits 8 ((8 - e.length % 8) % 8))
    (e ++ List.replicate ((8 - e.length % 8) % 8) '0')
  rwa [length_natToBits] at h

lemma build_padded_text_header (e : List Char) :
    bitsToNat ((build_padded_text e).take 8) = (8 - e.length % 8) % 8 := by
  rw [build_padded_text_take8, bitsToNat_natToBits]
  exact Nat.mod_eq_of_lt (by omega)

lemma build_padded_text_binary (e : List Char) (hb : ∀ c ∈ e, c = '0' ∨ c = '1') :
    ∀ c ∈ build_padded_text e, c = '0' ∨ c = '1' := by
  intro c hc
  simp only [build_padded_text, List.mem_append] at hc
  rcases hc with (h | h) | h
  · exact mem_natToBits 8 _ c h
  · exact hb c h
  · left; exact List.eq_of_mem_replicate h

lemma remove_padding_eq (text : List Char)
    (h : 8 + bitsToNat (text.take 8) ≤ text.length) :
    remove_padding text =
      (text.drop 8).take ((text.drop 8).length - bitsToNat (text.take 8)) := by
  unfold remove_padding
  split
  · rename_i h0
    rw [h0, Nat.sub_zero, List.take_length]
  · rfl

lemma remove_padding_length (text : List Char)
    (h : 8 + bitsToNat (text.take 8) ≤ text.length) :
    (remove_padding text).length + bitsToNat (text.take 8) = (text.drop 8).length := by
  rw [remove_padding_eq text h, List.length_take, List.length_drop]
  omega

lemma remove_padding_build (s : List Char) (hb : ∀ c ∈ s, c = '0' ∨ c = '1') :
    remove_padding (build_padded_text s) = s := by
  have hhdr := build_padded_text_header s
  have hdrop := build_padded_text_drop8 s
  unfold remove_padding
  rw [hhdr, hdrop]
  split
  · rename_i h0
    simp [h0]
  · rename_i h0
    have hlen : (s ++ List.replicate ((8 - s.length % 8) % 8) '0').length =
        s.length + (8 - s.length % 8) % 8 := by simp
    rw [hlen]
    have : s.length + (8 - s.length % 8) % 8 - (8 - s.length % 8) % 8 = s.length := by omega
    rw [this]
    have h := List.take_left s (List.replicate ((8 - s.length % 8) % 8) '0')
    exact h

/-! ### Heap permutation lemmas -/

lemma length_siftdownLoop (fuel : Nat) (l : List BTree) (startpos : Nat) (newitem : BTree)
    (pos : Nat) : (siftdownLoop fuel l startpos newitem pos).length = l.length := by
  induction fuel generalizing l pos with
  | zero => simp [siftdownLoop]
  | succ f ih =>
    simp only [siftdownLoop]
    split
    · split
      · rw [ih]; simp
      · simp
    · simp

lemma siftdownLoop_perm (fuel : Nat) (l : List BTree) (startpos : Nat) (newitem : BTree)
    (pos : Nat) (h : pos < l.length) :
    List.Perm (siftdownLoop fuel l startpos newitem pos) (l.set pos newitem) := by
  induction fuel generalizing l pos with
  | zero => exact List.Perm.refl _
  | succ f ih =>
    simp only [siftdownLoop]
    split
    · rename_i hsp
      split
      · rename_i hlt
        have hpos1 : 1 ≤ pos := by omega
        have hpp : (pos - 1) / 2 < pos := by omega
        have hpplen : (pos - 1) / 2 < l.length := lt_trans hpp h
        have hperm := ih (l.set pos (l.getD ((pos - 1) / 2) default)) ((pos - 1) / 2)
          (by simpa using hpplen)
        refine hperm.trans ?_
        exact set_getD_set_perm l pos ((pos - 1) / 2) newitem default h hpplen (by omega)
      · exact List.Perm.refl _
    · exact List.Perm.refl _

lemma length_siftupLoop (fuel : Nat) (l : List BTree) (startpos : Nat) (newitem : BTree)
    (pos : Nat) : (siftupLoop fuel l startpos newitem pos).length = l.length := by
  induction fuel generalizing l pos with
  | zero => simp [siftupLoop, length_siftdownLoop]
  | succ f ih =>
    simp only [siftupLoop]
    split
    · rw [ih]; simp
    · rw [length_siftdownLoop]; simp

lemma siftupLoop_perm (fuel : Nat) (l : List BTree) (startpos : Nat) (newitem : BTree)
    (pos : Nat) (h : pos < l.length) :
    List.Perm (siftupLoop fuel l startpos newitem pos) (l.set pos newitem) := by
  induction fuel generalizing l pos with
  | zero =>
    simp only [siftupLoop]
    have hperm := siftdownLoop_perm pos (l.set pos newitem) startpos newitem pos
      (by simpa using h)
    simpa [List.set_set] using hperm
  | succ f ih =>
    simp only [siftupLoop]
    split
    · rename_i hchild
      set childpos := if 2 * pos + 1 + 1 < l.length ∧
          ¬ (l.getD (2 * pos + 1) default).frequency <
            (l.getD (2 * pos + 1 + 1) default).frequency then 2 * pos + 1 + 1
        else 2 * pos + 1 with hcp
      have hcplen : childpos < l.length := by
        rw [hcp]; split
        · rename_i hr; exact hr.1
        · exact hchild
      have hne : pos ≠ childpos := by
        rw [hcp]; split <;> omega
      have hperm := ih (l.set pos (l.getD childpos default)) childpos (by simpa using hcplen)
      refine hperm.trans ?_
      exact set_getD_set_perm l pos childpos newitem default (by omega) hcplen hne
    · have hperm := siftdownLoop_perm pos (l.set pos newitem) startpos newitem pos
        (by simpa using h)
      simpa [List.set_set] using hperm

lemma length_siftup (l : List BTree) (pos : Nat) : (siftup l pos).length = l.length :=
  length_siftupLoop l.length l pos (l.getD pos default) pos

lemma siftup_perm (l : List BTree) (pos : Nat) (h : pos < l.length) :
    List.Perm (siftup l pos) l := by
  have hperm := siftupLoop_perm l.length l pos (l.getD pos default) pos h
  rwa [set_getD_self l pos default h] at hperm

lemma set_append_singleton {α : Type} (l : List α) (a x : α) :
    (l ++ [a]).set l.length x = l ++ [x] := by
  induction l with
  | nil => rfl
  | cons b t ih => simp [List.set, ih]

lemma heappush_perm (l : List BTree) (item : BTree) :
    List.Perm (heappush l item) (item :: l) := by
  unfold heappush siftdown
  rw [getD_append_length]
  have hlen : l.length < (l ++ [item]).length := by simp
  have hperm := siftdownLoop_perm l.length (l ++ [item]) 0 item l.length hlen
  rw [set_append_singleton] at hperm
  refine hperm.trans ?_
  have hm : List.Perm (l ++ [item]) (item :: (l ++ [])) := List.perm_middle
  simpa using hm

lemma dropLast_append_getLastD {α : Type} (l : List α) (d : α) (h : l ≠ []) :
    l.dropLast ++ [l.getLastD d] = l := by
  induction l generalizing d with
  | nil => exact absurd rfl h
  | cons a t ih =>
    cases t with
    | nil => simp
    | cons b s =>
      have h2 := ih (d := a) (by simp)
      simp only [List.dropLast_cons₂, List.cons_append, List.cons.injEq, true_and]
      rw [List.getLastD_cons]
      exact h2

lemma heappop_perm (l : List BTree) (x : BTree) (l2 : List BTree)
    (h : heappop l = some (x, l2)) : List.Perm (x :: l2) l := by
  match l with
  | [] => simp [heappop] at h
  | y :: ys =>
    have hsplit := dropLast_append_getLastD (y :: ys) default (by simp)
    simp only [heappop] at h
    split at h
    · rename_i hdl
      rw [hdl] at hsplit
      injection h with h1
      injection h1 with hx hl2
      subst hx; subst hl2
      rw [← hsplit]
      exact List.Perm.refl _
    · rename_i z zs hdl
      injection h with h1
      injection h1 with hx hl2
      subst hx; subst hl2
      set g := (y :: ys).getLastD default with hg
      rw [hdl] at hsplit
      have hperm := siftup_perm ((z :: zs).set 0 g) 0 (by simp)
      have hset : (z :: zs).set 0 g = g :: zs := by simp
      rw [hset] at hperm
      refine (List.Perm.cons z hperm).trans ?_
      have hmid : List.Perm (g :: (zs ++ [])) (zs ++ [g]) := List.perm_middle.symm
      have h2 : List.Perm (z :: g :: zs) (z :: (zs ++ [g])) := by
        simpa using List.Perm.cons z hmid
      refine h2.trans ?_
      rw [← hsplit]
      simp

lemma heappop_eq_none (l : List BTree) : heappop l = none ↔ l = [] := by
  cases l with
  | nil => simp [heappop]
  | cons x xs =>
    simp only [heappop]
    split <;> simp

lemma heappop_length (l : List BTree) (x : BTree) (l2 : List BTree)
    (h : heappop l = some (x, l2)) : l2.length + 1 = l.length := by
  have hperm := heappop_perm l x l2 h
  have := hperm.length_eq
  simpa using this

lemma foldl_siftup_perm (idxs : List Nat) (l : List BTree)
    (h : ∀ i ∈ idxs, i < l.length) :
    List.Perm (idxs.foldl (fun acc i => siftup acc i) l) l := by
  induction idxs generalizing l with
  | nil => exact List.Perm.refl _
  | cons i t ih =>
    simp only [List.foldl_cons]
    have hi : i < l.length := h i (by simp)
    have hperm1 := siftup_perm l i hi
    have hlen : (siftup l i).length = l.length := length_siftup l i
    have ht : ∀ j ∈ t, j < (siftup l i).length := by
      intro j hj; rw [hlen]; exact h j (by simp [hj])
    exact (ih (siftup l i) ht).trans hperm1

lemma heapify_perm (l : List BTree) : List.Perm (heapify l) l := by
  unfold heapify
  apply foldl_siftup_perm
  intro i hi
  simp only [List.mem_reverse, List.mem_range] at hi
  exact lt_of_lt_of_le hi (Nat.div_le_self _ _)

/-! ### Leaf multiset preservation -/

lemma joinLeaves_cons (t : BTree) (hs : List BTree) :
    joinLeaves (t :: hs) = leafValues t ++ joinLeaves hs := by
  simp [joinLeaves]

lemma joinLeaves_perm (h1 h2 : List BTree) (h : List.Perm h1 h2) :
    List.Perm (joinLeaves h1) (joinLeaves h2) :=
  List.Perm.flatten (List.Perm.map leafValues h)

lemma heapify_joinLeaves (l : List BTree) :
    List.Perm (joinLeaves (heapify l)) (joinLeaves l) :=
  joinLeaves_perm _ _ (heapify_perm l)

lemma heappop_joinLeaves (l : List BTree) (x : BTree) (l2 : List BTree)
    (h : heappop l = some (x, l2)) :
    List.Perm (leafValues x ++ joinLeaves l2) (joinLeaves l) := by
  have hperm := joinLeaves_perm _ _ (heappop_perm l x l2 h)
  rwa [joinLeaves_cons] at hperm

lemma heappush_joinLeaves (l : List BTree) (item : BTree) :
    List.Perm (joinLeaves (heappush l item)) (leafValues item ++ joinLeaves l) := by
  have hperm := joinLeaves_perm _ _ (heappush_perm l item)
  rwa [joinLeaves_cons] at hperm

lemma buildTreeLoop_joinLeaves (fuel : Nat) (heap : List BTree) :
    List.Perm (joinLeaves (buildTreeLoop fuel heap)) (joinLeaves heap) := by
  induction fuel generalizing heap with
  | zero => exact List.Perm.refl _
  | succ f ih =>
    simp only [buildTreeLoop]
    split
    · rename_i hlen
      cases hp1 : heappop heap with
      | none =>
        exact absurd ((heappop_eq_none heap).1 hp1) (by intro hnil; rw [hnil] at hlen; simp at hlen)
      | some p1 =>
        obtain ⟨n1, h1⟩ := p1
        dsimp only
        cases hp2 : heappop h1 with
        | none =>
          have hnil := (heappop_eq_none h1).1 hp2
          have hl1 := heappop_length heap n1 h1 hp1
          rw [hnil] at hl1
          simp at hl1
          omega
        | some p2 =>
          obtain ⟨n2, h2⟩ := p2
          dsimp only
          have hstep := ih (heappush h2 (BTree.node (n1.frequency + n2.frequency) n1 n2))
          refine hstep.trans ?_
          have hpush := heappush_joinLeaves h2 (BTree.node (n1.frequency + n2.frequency) n1 n2)
          refine hpush.trans ?_
          have hlv : leafValues (BTree.node (n1.frequency + n2.frequency) n1 n2) =
              leafValues n1 ++ leafValues n2 := rfl
          rw [hlv, List.append_assoc]
          have hin : List.Perm (leafValues n2 ++ joinLeaves h2) (joinLeaves h1) :=
            heappop_joinLeaves h1 n2 h2 hp2
          refine (List.Perm.append_left (leafValues n1) hin).trans ?_
          exact heappop_joinLeaves heap n1 h1 hp1
    · exact List.Perm.refl _

lemma buildTreeLoop_length (fuel : Nat) (heap : List BTree)
    (h1 : 1 ≤ heap.length) (h2 : heap.length ≤ fuel + 1) :
    (buildTreeLoop fuel heap).length = 1 := by
  induction fuel generalizing heap with
  | zero =>
    simp only [buildTreeLoop]
    omega
  | succ f ih =>
    simp only [buildTreeLoop]
    split
    · rename_i hlen
      cases hp1 : heappop heap with
      | none =>
        exact absurd ((heappop_eq_none heap).1 hp1)
          (by intro hnil; rw [hnil] at hlen; simp at hlen)
      | some p1 =>
        obtain ⟨n1, h1l⟩ := p1
        dsimp only
        cases hp2 : heappop h1l with
        | none =>
          have hnil := (heappop_eq_none h1l).1 hp2
          have hl1 := heappop_length heap n1 h1l hp1
          rw [hnil] at hl1
          simp at hl1
          omega
        | some p2 =>
          obtain ⟨n2, h2l⟩ := p2
          dsimp only
          have hl1 := heappop_length heap n1 h1l hp1
          have hl2 := heappop_length h1l n2 h2l hp2
          have hlpush : (heappush h2l (BTree.node (n1.frequency + n2.frequency) n1 n2)).length =
              h2l.length + 1 := (heappush_perm h2l _).length_eq.trans (by simp)
          apply ih
          · omega
          · omega
    · omega

/-! ### Dictionary lemmas -/

lemma dictGet_dictSet_self {α β : Type} [DecidableEq α] (d : List (α × β)) (k : α) (v : β) :
    dictGet (dictSet d k v) k = some v := by
  induction d with
  | nil => simp [dictGet, dictSet]
  | cons p t ih =>
    obtain ⟨k0, v0⟩ := p
    by_cases h : k0 = k
    · simp [dictSet, dictGet, h]
    · simp [dictSet, dictGet, h, ih]

lemma dictGet_dictSet_ne {α β : Type} [DecidableEq α] (d : List (α × β)) (k k2 : α) (v : β)
    (hne : k ≠ k2) : dictGet (dictSet d k v) k2 = dictGet d k2 := by
  induction d with
  | nil => simp [dictGet, dictSet, hne]
  | cons p t ih =>
    obtain ⟨k0, v0⟩ := p
    by_cases h : k0 = k
    · subst h; simp [dictSet, dictGet, hne]
    · by_cases h2 : k0 = k2
      · subst h2
        have hne2 : ¬ k0 = k := h
        simp [dictSet, dictGet, hne2]
      · simp [dictSet, dictGet, h, h2, ih]

lemma mem_keys_dictSet {α β : Type} [DecidableEq α] (d : List (α × β)) (k k2 : α) (v : β) :
    k2 ∈ (dictSet d k v).map Prod.fst ↔ k2 = k ∨ k2 ∈ d.map Prod.fst := by
  induction d with
  | nil => simp [dictSet, eq_comm]
  | cons p t ih =>
    obtain ⟨k0, v0⟩ := p
    by_cases h : k0 = k
    · subst h
      have hred : dictSet ((k0, v0) :: t) k0 v = (k0, v) :: t := by simp [dictSet]
      rw [hred]
      simp only [List.map_cons, List.mem_cons]
      tauto
    · have hred : dictSet ((k0, v0) :: t) k v = (k0, v0) :: dictSet t k v := by
        simp [dictSet, h]
      rw [hred]
      simp only [List.map_cons, List.mem_cons, ih]
      tauto

lemma nodup_keys_dictSet {α β : Type} [DecidableEq α] (d : List (α × β)) (k : α) (v : β) :
    (d.map Prod.fst).Nodup → ((dictSet d k v).map Prod.fst).Nodup := by
  induction d with
  | nil => intro _; simp [dictSet]
  | cons p t ih =>
    intro hd
    obtain ⟨k0, v0⟩ := p
    rw [List.map_cons, List.nodup_cons] at hd
    by_cases h : k0 = k
    · subst h
      have hred : dictSet ((k0, v0) :: t) k0 v = (k0, v) :: t := by simp [dictSet]
      rw [hred, List.map_cons, List.nodup_cons]
      exact hd
    · have hred : dictSet ((k0, v0) :: t) k v = (k0, v0) :: dictSet t k v := by
        simp [dictSet, h]
      rw [hred, List.map_cons, List.nodup_cons]
      refine ⟨?_, ih hd.2⟩
      intro hmem
      rw [mem_keys_dictSet] at hmem
      rcases hmem with h1 | h1
      · exact h h1
      · exact hd.1 h1

lemma dictSet_not_mem {α β : Type} [DecidableEq α] (d : List (α × β)) (k : α) (v : β) :
    k ∉ d.map Prod.fst → dictSet d k v = d ++ [(k, v)] := by
  induction d with
  | nil => intro _; simp [dictSet]
  | cons p t ih =>
    intro h
    obtain ⟨k0, v0⟩ := p
    rw [List.map_cons, List.mem_cons] at h
    push_neg at h
    have hne : ¬ k0 = k := fun hEq => h.1 hEq.symm
    have hred : dictSet ((k0, v0) :: t) k v = (k0, v0) :: dictSet t k v := by
      simp [dictSet, hne]
    rw [hred, ih h.2]
    simp

lemma dictGet_mem {α β : Type} [DecidableEq α] (d : List (α × β)) (k : α) (v : β)
    (h : dictGet d k = some v) : (k, v) ∈ d := by
  induction d with
  | nil => simp [dictGet] at h
  | cons p t ih =>
    obtain ⟨k0, v0⟩ := p
    simp only [dictGet] at h
    split at h
    · rename_i hk
      injection h with hv
      subst hk; subst hv
      simp
    · simp [ih h]

lemma dictGet_isSome_of_mem_keys {α β : Type} [DecidableEq α] (d : List (α × β)) (k : α)
    (h : k ∈ d.map Prod.fst) : ∃ v, dictGet d k = some v := by
  induction d with
  | nil => simp at h
  | cons p t ih =>
    obtain ⟨k0, v0⟩ := p
    by_cases hk : k0 = k
    · exact ⟨v0, by simp [dictGet, hk]⟩
    · rw [List.map_cons, List.mem_cons] at h
      rcases h with h | h
      · exact absurd h.symm hk
      · obtain ⟨v, hv⟩ := ih h
        exact ⟨v, by simp [dictGet, hk, hv]⟩

lemma dictGet_of_mem_nodup {α β : Type} [DecidableEq α] (d : List (α × β)) (k : α) (v : β) :
    (d.map Prod.fst).Nodup → (k, v) ∈ d → dictGet d k = some v := by
  induction d with
  | nil => intro _ h; simp at h
  | cons p t ih =>
    intro hd h
    obtain ⟨k0, v0⟩ := p
    rw [List.map_cons, List.nodup_cons] at hd
    rw [List.mem_cons] at h
    rcases h with h | h
    · injection h with h1 h2
      subst h1; subst h2
      simp [dictGet]
    · have hne : k0 ≠ k := by
        intro hEq
        subst hEq
        exact hd.1 (List.mem_map.2 ⟨(k0, v), h, rfl⟩)
      simp [dictGet, hne, ih hd.2 h]

lemma insertAll_cons {α β : Type} [DecidableEq α] (st : List (α × β)) (p : α × β)
    (ps : List (α × β)) : insertAll st (p :: ps) = insertAll (dictSet st p.1 p.2) ps := by
  simp [insertAll]

lemma dictGet_insertAll_not_mem {α β : Type} [DecidableEq α] (st ps : List (α × β)) (k : α)
    (h : k ∉ ps.map Prod.fst) : dictGet (insertAll st ps) k = dictGet st k := by
  induction ps generalizing st with
  | nil => simp [insertAll]
  | cons p t ih =>
    obtain ⟨k0, v0⟩ := p
    rw [List.map_cons, List.mem_cons] at h
    push_neg at h
    rw [insertAll_cons, ih _ h.2]
    exact dictGet_dictSet_ne st k0 k v0 (fun hEq => h.1 hEq.symm)

lemma dictGet_insertAll_mem {α β : Type} [DecidableEq α] (ps : List (α × β)) (k : α) (v : β)
    (hnd : (ps.map Prod.fst).Nodup) (h : (k, v) ∈ ps) (st : List (α × β)) :
    dictGet (insertAll st ps) k = some v := by
  induction ps generalizing st with
  | nil => simp at h
  | cons p t ih =>
    obtain ⟨k0, v0⟩ := p
    rw [List.map_cons, List.nodup_cons] at hnd
    rw [List.mem_cons] at h
    rcases h with h | h
    · injection h with h1 h2
      subst h1; subst h2
      rw [insertAll_cons, dictGet_insertAll_not_mem _ _ _ hnd.1]
      exact dictGet_dictSet_self st k v
    · rw [insertAll_cons]
      exact ih hnd.2 h _

lemma insertAll_fresh {α β : Type} [DecidableEq α] (ps : List (α × β)) :
    ∀ st : List (α × β), (∀ k ∈ ps.map Prod.fst, k ∉ st.map Prod.fst) →
      (ps.map Prod.fst).Nodup → insertAll st ps = st ++ ps := by
  induction ps with
  | nil => intro st _ _; simp [insertAll]
  | cons p t ih =>
    intro st hfresh hnd
    obtain ⟨k0, v0⟩ := p
    rw [List.map_cons, List.nodup_cons] at hnd
    rw [insertAll_cons]
    have hset := dictSet_not_mem st k0 v0 (hfresh k0 (by simp))
    rw [hset, ih (st ++ [(k0, v0)])]
    · simp
    · intro k hk
      rw [List.map_append, List.mem_append]
      push_neg
      constructor
      · exact hfresh k (by simp [hk])
      · intro hmem
        simp only [List.map_cons, List.map_nil, List.mem_singleton] at hmem
        subst hmem
        exact hnd.1 hk
    · exact hnd.2

lemma insertAll_nil {α β : Type} [DecidableEq α] (ps : List (α × β))
    (hnd : (ps.map Prod.fst).Nodup) : insertAll [] ps = ps := by
  have := insertAll_fresh ps [] (by simp) hnd
  simpa using this

/-! ### Frequency table lemmas -/

lemma nodup_keys_freqStep (d : List (Char × Nat)) (c : Char)
    (hd : (d.map Prod.fst).Nodup) : ((freqStep d c).map Prod.fst).Nodup := by
  unfold freqStep
  cases dictGet d c <;> exact nodup_keys_dictSet d c _ hd

lemma mem_keys_freqStep (d : List (Char × Nat)) (c k : Char) :
    k ∈ (freqStep d c).map Prod.fst ↔ k = c ∨ k ∈ d.map Prod.fst := by
  unfold freqStep
  cases dictGet d c <;> exact mem_keys_dictSet d c k _

lemma freq_foldl_nodup (text : List Char) :
    ∀ d : List (Char × Nat), (d.map Prod.fst).Nodup →
      ((text.foldl freqStep d).map Prod.fst).Nodup := by
  induction text with
  | nil => intro d hd; simpa using hd
  | cons c t ih =>
    intro d hd
    rw [List.foldl_cons]
    exact ih _ (nodup_keys_freqStep d c hd)

lemma freq_foldl_mem (text : List Char) :
    ∀ (d : List (Char × Nat)) (k : Char),
      k ∈ (text.foldl freqStep d).map Prod.fst ↔ k ∈ d.map Prod.fst ∨ k ∈ text := by
  induction text with
  | nil => intro d k; simp
  | cons c t ih =>
    intro d k
    rw [List.foldl_cons, ih, mem_keys_freqStep]
    simp only [List.mem_cons]
    tauto

lemma nodup_keys_freq (text : List Char) :
    ((frequency_from_text text).map Prod.fst).Nodup :=
  freq_foldl_nodup text [] (by simp)

lemma mem_keys_freq (text : List Char) (k : Char) :
    k ∈ (frequency_from_text text).map Prod.fst ↔ k ∈ text := by
  unfold frequency_from_text
  rw [freq_foldl_mem]
  simp

lemma freq_ne_nil (text : List Char) (h : text ≠ []) : frequency_from_text text ≠ [] := by
  match text, h with
  | c :: t, _ =>
    intro hnil
    have := (mem_keys_freq (c :: t) c).2 (by simp)
    rw [hnil] at this
    simp at this

/-! ### Code table lemmas -/

lemma map_fst_leafCodes (t : BTree) : ∀ curr, (leafCodes t curr).map Prod.fst = leafValues t := by
  induction t with
  | leaf v f => intro curr; simp [leafCodes, leafValues]
  | node f l r ihl ihr => intro curr; simp [leafCodes, leafValues, ihl, ihr]

lemma prefix_of_mem_leafCodes (t : BTree) :
    ∀ (curr : List Char) (v : Char) (b : List Char), curr ≠ [] →
      (v, b) ∈ leafCodes t curr → curr <+: b := by
  induction t with
  | leaf v0 f =>
    intro curr v b hne hmem
    simp only [leafCodes, List.mem_singleton, Prod.mk.injEq] at hmem
    rw [if_neg hne] at hmem
    rw [← hmem.2]
  | node f l r ihl ihr =>
    intro curr v b hne hmem
    simp only [leafCodes, List.mem_append] at hmem
    rcases hmem with h | h
    · exact (List.prefix_append curr ['0']).trans (ihl _ v b (by simp) h)
    · exact (List.prefix_append curr ['1']).trans (ihr _ v b (by simp) h)

lemma code_ne_nil_of_mem_leafCodes (t : BTree) :
    ∀ (curr : List Char) (v : Char) (b : List Char), (v, b) ∈ leafCodes t curr → b ≠ [] := by
  induction t with
  | leaf v0 f =>
    intro curr v b hmem
    simp only [leafCodes, List.mem_singleton, Prod.mk.injEq] at hmem
    rw [hmem.2]
    split
    · simp
    · assumption
  | node f l r ihl ihr =>
    intro curr v b hmem
    simp only [leafCodes, List.mem_append] at hmem
    rcases hmem with h | h
    · exact ihl _ v b h
    · exact ihr _ v b h

lemma binary_of_mem_leafCodes (t : BTree) :
    ∀ (curr : List Char) (v : Char) (b : List Char),
      (∀ c ∈ curr, c = '0' ∨ c = '1') → (v, b) ∈ leafCodes t curr →
      ∀ c ∈ b, c = '0' ∨ c = '1' := by
  induction t with
  | leaf v0 f =>
    intro curr v b hcurr hmem
    simp only [leafCodes, List.mem_singleton, Prod.mk.injEq] at hmem
    rw [hmem.2]
    split
    · intro c hc; simp at hc; simp [hc]
    · exact hcurr
  | node f l r ihl ihr =>
    intro curr v b hcurr hmem
    have h0 : ∀ c ∈ curr ++ ['0'], c = '0' ∨ c = '1' := by
      intro c hc
      rcases List.mem_append.1 hc with h | h
      · exact hcurr c h
      · simp at h; simp [h]
    have h1 : ∀ c ∈ curr ++ ['1'], c = '0' ∨ c = '1' := by
      intro c hc
      rcases List.mem_append.1 hc with h | h
      · exact hcurr c h
      · simp at h; simp [h]
    simp only [leafCodes, List.mem_append] at hmem
    rcases hmem with h | h
    · exact ihl _ v b h0 h
    · exact ihr _ v b h1 h

lemma prefix_eq_of_len {α : Type} {a b : List α} (h : a <+: b) (hl : a.length = b.length) :
    a = b := by
  exact List.IsPrefix.eq_of_length h hl

lemma prefix_comparable {α : Type} {a b l : List α} (h1 : a <+: l) (h2 : b <+: l) :
    a <+: b ∨ b <+: a := by
  exact List.prefix_or_prefix_of_prefix h1 h2

lemma not_prefix_of_diverge (curr b1 b2 : List Char) (c1 c2 : Char) (hne : c1 ≠ c2)
    (h1 : curr ++ [c1] <+: b1) (h2 : curr ++ [c2] <+: b2) : ¬ b1 <+: b2 := by
  intro hb
  have h1b : curr ++ [c1] <+: b2 := h1.trans hb
  have hlen : (curr ++ [c1]).length = (curr ++ [c2]).length := by simp
  rcases prefix_comparable h1b h2 with hc | hc
  · have hEq := prefix_eq_of_len hc hlen
    have := List.append_cancel_left hEq
    simp at this
    exact hne this
  · have hEq := prefix_eq_of_len hc hlen.symm
    have := List.append_cancel_left hEq
    simp at this
    exact hne this.symm

lemma pairwise_leafCodes (t : BTree) :
    ∀ curr, List.Pairwise (fun p q : Char × List Char => ¬ p.2 <+: q.2 ∧ ¬ q.2 <+: p.2)
      (leafCodes t curr) := by
  induction t with
  | leaf v0 f => intro curr; simp [leafCodes]
  | node f l r ihl ihr =>
    intro curr
    rw [leafCodes, List.pairwise_append]
    refine ⟨ihl _, ihr _, ?_⟩
    intro p hp q hq
    obtain ⟨pv, pb⟩ := p
    obtain ⟨qv, qb⟩ := q
    have hpl : curr ++ ['0'] <+: pb := prefix_of_mem_leafCodes l _ pv pb (by simp) hp
    have hqr : curr ++ ['1'] <+: qb := prefix_of_mem_leafCodes r _ qv qb (by simp) hq
    constructor
    · exact not_prefix_of_diverge curr pb qb '0' '1' (by decide) hpl hqr
    · exact not_prefix_of_diverge curr qb pb '1' '0' (by decide) hqr hpl

lemma nodup_snd_leafCodes (t : BTree) (curr : List Char) :
    ((leafCodes t curr).map Prod.snd).Nodup := by
  have hpw := pairwise_leafCodes t curr
  have hm : ((leafCodes t curr).map Prod.snd).Pairwise
      (fun b1 b2 => ¬ b1 <+: b2 ∧ ¬ b2 <+: b1) :=
    (List.pairwise_map).2 hpw
  exact hm.imp (fun h hEq => absurd (hEq ▸ List.prefix_refl _) h.1)

lemma nodup_fst_leafCodes (t : BTree) (curr : List Char)
    (h : (leafValues t).Nodup) : ((leafCodes t curr).map Prod.fst).Nodup := by
  rw [map_fst_leafCodes]
  exact h

lemma build_tree_code_helper_eq (t : BTree) :
    ∀ (curr : List Char) (st : CodeDict × RevDict),
      build_tree_code_helper t curr st =
        (insertAll st.1 (leafCodes t curr),
          insertAll st.2 ((leafCodes t curr).map fun p => (p.2, p.1))) := by
  induction t with
  | leaf v f =>
    intro curr st
    simp [build_tree_code_helper, leafCodes, insertAll]
  | node f l r ihl ihr =>
    intro curr st
    simp only [build_tree_code_helper, leafCodes]
    rw [ihl, ihr]
    simp [insertAll, List.foldl_append]

/-! ### Decoding lemmas -/

lemma decodeGo_no_match (rev : RevDict) :
    ∀ (tail buf : List Char),
      (∀ i, i < tail.length → dictGet rev (buf ++ tail.take (i + 1)) = none) →
      decodeGo rev buf tail = [] := by
  intro tail
  induction tail with
  | nil => intro buf _; rfl
  | cons bit rest ih =>
    intro buf h
    have h0 := h 0 (by simp)
    simp only [List.take_succ_cons, List.take_zero] at h0
    simp only [decodeGo, h0]
    apply ih
    intro i hi
    have := h (i + 1) (by simpa using Nat.succ_lt_succ hi)
    simpa [List.append_assoc] using this

lemma decodeGo_code (rev : RevDict) (b : List Char) (c : Char)
    (hb : dictGet rev b = some c)
    (hpre : ∀ p, p <+: b → p ≠ [] → p ≠ b → dictGet rev p = none) :
    ∀ (b2 pre : List Char), pre ++ b2 = b → b2 ≠ [] →
      ∀ rest, decodeGo rev pre (b2 ++ rest) = c :: decodeGo rev [] rest := by
  intro b2
  induction b2 with
  | nil => intro pre _ hne; exact absurd rfl hne
  | cons bit b2t ih =>
    intro pre hsplit _ rest
    by_cases hb2 : b2t = []
    · subst hb2
      simp only [List.cons_append, List.nil_append, decodeGo, hsplit, hb]
      rfl
    · have hsplit2 : (pre ++ [bit]) ++ b2t = b := by simpa [List.append_assoc] using hsplit
      have hpref : (pre ++ [bit]) <+: b := ⟨b2t, hsplit2⟩
      have hneb : pre ++ [bit] ≠ b := by
        intro hEq
        rw [hEq] at hsplit2
        have hlen := congrArg List.length hsplit2
        simp at hlen
        exact hb2 hlen
      have hnone := hpre (pre ++ [bit]) hpref (by simp) hneb
      simp only [List.cons_append, decodeGo, hnone]
      exact ih (pre ++ [bit]) hsplit2 hb2 rest

lemma decode_encode_append (pairs : List (Char × List Char))
    (hfst : (pairs.map Prod.fst).Nodup)
    (hsnd : (pairs.map Prod.snd).Nodup)
    (hpf : List.Pairwise (fun p q : Char × List Char => ¬ p.2 <+: q.2 ∧ ¬ q.2 <+: p.2) pairs)
    (hnil : ∀ p ∈ pairs, p.2 ≠ []) :
    ∀ (text e : List Char), build_encoded_text pairs text = some e →
      ∀ rest, decodeGo (pairs.map fun p => (p.2, p.1)) [] (e ++ rest) =
        text ++ decodeGo (pairs.map fun p => (p.2, p.1)) [] rest := by
  intro text
  induction text with
  | nil =>
    intro e henc rest
    simp only [build_encoded_text] at henc
    injection henc with henc
    subst henc
    simp
  | cons c t ih =>
    intro e henc rest
    simp only [build_encoded_text] at henc
    cases hg : dictGet pairs c with
    | none => rw [hg] at henc; simp at henc
    | some b =>
      cases he : build_encoded_text pairs t with
      | none => rw [hg, he] at henc; simp at henc
      | some e2 =>
        rw [hg, he] at henc
        simp only [Option.some.injEq] at henc
        subst henc
        have hmemb : (c, b) ∈ pairs := dictGet_mem pairs c b hg
        have hrevnd : (((pairs.map fun p => (p.2, p.1)).map Prod.fst)).Nodup := by
          rw [List.map_map]
          exact hsnd
        have hgetrev : dictGet (pairs.map fun p => (p.2, p.1)) b = some c := by
          apply dictGet_of_mem_nodup _ _ _ hrevnd
          exact List.mem_map.2 ⟨(c, b), hmemb, rfl⟩
        have hprefix : ∀ p, p <+: b → p ≠ [] → p ≠ b →
            dictGet (pairs.map fun q => (q.2, q.1)) p = none := by
          intro p hp _ hpneb
          cases hdg : dictGet (pairs.map fun q => (q.2, q.1)) p with
          | none => rfl
          | some c2 =>
            have hmem2 := dictGet_mem _ p c2 hdg
            obtain ⟨q, hq, hqeq⟩ := List.mem_map.1 hmem2
            have hq2 : q.2 = p := congrArg Prod.fst hqeq
            have hqne : q ≠ (c, b) := by
              intro hEq
              apply hpneb
              rw [← hq2, hEq]
            have hsymm : Symmetric
                (fun p q : Char × List Char => ¬ p.2 <+: q.2 ∧ ¬ q.2 <+: p.2) :=
              fun a b h => ⟨h.2, h.1⟩
            have hrel := List.Pairwise.forall hsymm hpf hq hmemb hqne
            exact absurd (hq2 ▸ hp) hrel.1
        have hbne : b ≠ [] := hnil (c, b) hmemb
        rw [List.append_assoc]
        rw [decodeGo_code _ b c hgetrev hprefix b [] (by simp) hbne (e2 ++ rest)]
        rw [ih e2 he rest]
        simp

lemma build_encoded_text_isSome (code : CodeDict) :
    ∀ text : List Char, (∀ c ∈ text, ∃ b, dictGet code c = some b) →
      ∃ e, build_encoded_text code text = some e := by
  intro text
  induction text with
  | nil => intro _; exact ⟨[], rfl⟩
  | cons c t ih =>
    intro h
    obtain ⟨b, hb⟩ := h c (by simp)
    obtain ⟨e, he⟩ := ih (fun x hx => h x (by simp [hx]))
    exact ⟨b ++ e, by simp [build_encoded_text, hb, he]⟩

lemma build_encoded_text_binary (pairs : CodeDict)
    (hcodes : ∀ p ∈ pairs, ∀ c ∈ p.2, c = '0' ∨ c = '1') :
    ∀ (text e : List Char), build_encoded_text pairs text = some e →
      ∀ c ∈ e, c = '0' ∨ c = '1' := by
  intro text
  induction text with
  | nil =>
    intro e henc
    simp only [build_encoded_text] at henc
    injection henc with henc
    subst henc
    simp
  | cons c t ih =>
    intro e henc
    simp only [build_encoded_text] at henc
    cases hg : dictGet pairs c with
    | none => rw [hg] at henc; simp at henc
    | some b =>
      cases he : build_encoded_text pairs t with
      | none => rw [hg, he] at henc; simp at henc
      | some e2 =>
        rw [hg, he] at henc
        simp only [Option.some.injEq] at henc
        subst henc
        intro x hx
        rcases List.mem_append.1 hx with h | h
        · exact hcodes (c, b) (dictGet_mem pairs c b hg) x h
        · exact ih e2 he x h

lemma build_encoded_text_congr (code1 code2 : CodeDict) :
    ∀ text : List Char, (∀ c ∈ text, dictGet code1 c = dictGet code2 c) →
      build_encoded_text code1 text = build_encoded_text code2 text := by
  intro text
  induction text with
  | nil => intro _; rfl
  | cons c t ih =>
    intro h
    simp only [build_encoded_text]
    rw [h c (by simp), ih (fun x hx => h x (by simp [hx]))]

/-! ### Serializer and parser lemmas -/

lemma parseHexDigit_hexDigitChar : ∀ d, d < 16 → parseHexDigit (hexDigitChar d) = some d := by
  decide

lemma digitChar_toNat : ∀ d, d < 10 → (Char.ofNat (48 + d)).toNat = 48 + d := by
  decide

lemma digitChar_isDigit : ∀ d, d < 10 → (Char.ofNat (48 + d)).isDigit = true := by
  decide

lemma digitChar_byte : ∀ d, d < 10 →
    (Char.ofNat (48 + d)).toNat ≠ 10 ∧ (Char.ofNat (48 + d)).toNat < 128 := by
  decide

lemma hexDigitChar_byte : ∀ d, d < 16 →
    (hexDigitChar d).toNat ≠ 10 ∧ (hexDigitChar d).toNat < 128 := by
  decide

lemma parseU4_natToHex4 (n : Nat) (hn : n < 65536) (rest : List Char) :
    parseU4 (natToHex4 n ++ rest) = some (n, rest) := by
  have h1 : n / 4096 % 16 < 16 := Nat.mod_lt _ (by norm_num)
  have h2 : n / 256 % 16 < 16 := Nat.mod_lt _ (by norm_num)
  have h3 : n / 16 % 16 < 16 := Nat.mod_lt _ (by norm_num)
  have h4 : n % 16 < 16 := Nat.mod_lt _ (by norm_num)
  simp only [natToHex4, List.cons_append, List.nil_append, parseU4,
    parseHexDigit_hexDigitChar _ h1, parseHexDigit_hexDigitChar _ h2,
    parseHexDigit_hexDigitChar _ h3, parseHexDigit_hexDigitChar _ h4]
  simp only [Option.some.injEq, Prod.mk.injEq]
  refine ⟨by omega, by trivial⟩

lemma decToNat_foldl (l : List Char) (a : Nat) :
    l.foldl (fun a c => 10 * a + (c.toNat - 48)) a = a * 10 ^ l.length + decToNat l := by
  induction l generalizing a with
  | nil => simp [decToNat]
  | cons c t ih =>
    simp only [List.foldl_cons, decToNat]
    rw [ih, ih (10 * 0 + _)]
    simp only [List.length_cons, Nat.pow_succ]
    ring

lemma decToNat_append_digit (A : List Char) (ch : Char) :
    decToNat (A ++ [ch]) = 10 * decToNat A + (ch.toNat - 48) := by
  simp only [decToNat, List.foldl_append, List.foldl_cons, List.foldl_nil]

lemma natToDecAux_spec : ∀ (fuel n : Nat), n < fuel →
    decToNat (natToDecAux fuel n) = n ∧
      (∀ c ∈ natToDecAux fuel n, ∃ d, d < 10 ∧ c = Char.ofNat (48 + d)) ∧
      natToDecAux fuel n ≠ [] := by
  intro fuel
  induction fuel with
  | zero => intro n h; omega
  | succ f ih =>
    intro n hn
    by_cases h10 : n < 10
    · refine ⟨?_, ?_, ?_⟩
      · simp only [natToDecAux, if_pos h10, decToNat, List.foldl_cons, List.foldl_nil]
        rw [digitChar_toNat n h10]
        omega
      · simp only [natToDecAux, if_pos h10, List.mem_singleton]
        intro c hc
        exact ⟨n, h10, hc⟩
      · simp [natToDecAux, if_pos h10]
    · have hdiv : n / 10 < f := by
        have hlt : n / 10 < n := Nat.div_lt_self (by omega) (by norm_num)
        omega
      obtain ⟨ihv, ihd, ihne⟩ := ih (n / 10) hdiv
      refine ⟨?_, ?_, ?_⟩
      · simp only [natToDecAux, if_neg h10]
        rw [decToNat_append_digit, ihv, digitChar_toNat (n % 10) (by omega)]
        omega
      · simp only [natToDecAux, if_neg h10]
        intro c hc
        rcases List.mem_append.1 hc with h | h
        · exact ihd c h
        · rw [List.mem_singleton] at h
          exact ⟨n % 10, by omega, h⟩
      · simp [natToDecAux, if_neg h10]

lemma natToDec_val (n : Nat) : decToNat (natToDec n) = n :=
  (natToDecAux_spec (n + 1) n (by omega)).1

lemma natToDec_digits (n : Nat) :
    ∀ c ∈ natToDec n, ∃ d, d < 10 ∧ c = Char.ofNat (48 + d) :=
  (natToDecAux_spec (n + 1) n (by omega)).2.1

lemma natToDec_ne_nil (n : Nat) : natToDec n ≠ [] :=
  (natToDecAux_spec (n + 1) n (by omega)).2.2

lemma dropWhile_eq_self_of_takeWhile_nil {α : Type} (p : α → Bool) (l : List α)
    (h : l.takeWhile p = []) : l.dropWhile p = l := by
  cases l with
  | nil => rfl
  | cons c t =>
    simp only [List.takeWhile_cons, List.dropWhile_cons] at *
    by_cases hp : p c
    · rw [hp] at h; simp at h
    · simp only [hp] at *
      simp

lemma parseNatTok_natToDec (v : Nat) (Y : List Char)
    (hY : Y.takeWhile (fun c => c.isDigit) = []) :
    parseNatTok (natToDec v ++ Y) = some (v, Y) := by
  have hdig : ∀ c ∈ natToDec v, (fun c : Char => c.isDigit) c = true := by
    intro c hc
    obtain ⟨d, hd, hcd⟩ := natToDec_digits v c hc
    subst hcd
    exact digitChar_isDigit d hd
  simp only [parseNatTok]
  rw [takeWhile_append_all _ _ _ hdig, dropWhile_append_all _ _ _ hdig, hY,
    dropWhile_eq_self_of_takeWhile_nil _ _ hY, List.append_nil]
  rw [if_neg (natToDec_ne_nil v), natToDec_val]

lemma char_valid_toNat (c : Char) :
    c.toNat < 0xd800 ∨ (0xdfff < c.toNat ∧ c.toNat < 0x110000) := by
  have h := c.valid
  rcases h with h | h
  · left; exact h
  · right; exact h

lemma parse_literal (c : Char) (h1 : ¬ c = '"') (h2 : ¬ c = '\\') (h3 : ¬ c.toNat < 0x20)
    (rest : List Char) : parseEscChar (c :: rest) = some (c, rest) := by
  simp only [parseEscChar]
  rw [if_neg h2, if_neg (by tauto)]

lemma parse_u_single (n : Nat) (hn : n < 65536) (hns1 : ¬ (0xd800 ≤ n ∧ n ≤ 0xdbff))
    (hns2 : ¬ (0xdc00 ≤ n ∧ n ≤ 0xdfff)) (rest : List Char) :
    parseEscChar ('\\' :: 'u' :: (natToHex4 n ++ rest)) = some (Char.ofNat n, rest) := by
  simp [parseEscChar, parseU4_natToHex4 n hn, hns1, hns2]

lemma parse_u_pair (n m : Nat) (hn : n < 65536) (hm : m < 65536)
    (hs1 : 0xd800 ≤ n ∧ n ≤ 0xdbff) (hs2 : 0xdc00 ≤ m ∧ m ≤ 0xdfff) (rest : List Char) :
    parseEscChar ('\\' :: 'u' :: (natToHex4 n ++ ('\\' :: 'u' :: (natToHex4 m ++ rest)))) =
      some (Char.ofNat (0x10000 + (n - 0xd800) * 0x400 + (m - 0xdc00)), rest) := by
  simp [parseEscChar, parseU4_natToHex4 n hn, parseU4_natToHex4 m hm,
    hs1.1, hs1.2, hs2.1, hs2.2]

lemma parseEscChar_escapeChar (c : Char) (rest : List Char) :
    parseEscChar (escapeChar c ++ rest) = some (c, rest) := by
  by_cases h1 : c = '"'
  · subst h1
    simp [escapeChar, parseEscChar]
  · by_cases h2 : c = '\\'
    · subst h2
      simp [escapeChar, parseEscChar]
    · by_cases h3 : c = '\n'
      · subst h3
        simp [escapeChar, parseEscChar]
      · by_cases h4 : c = '\r'
        · subst h4
          simp [escapeChar, parseEscChar]
        · by_cases h5 : c = '\t'
          · subst h5
            simp [escapeChar, parseEscChar]
          · by_cases h6 : c = '\x08'
            · subst h6
              simp [escapeChar, parseEscChar]
            · by_cases h7 : c = '\x0c'
              · subst h7
                simp [escapeChar, parseEscChar]
              · by_cases h8 : c.toNat < 0x20
                · have hesc : escapeChar c = '\\' :: 'u' :: natToHex4 c.toNat := by
                    simp only [escapeChar, if_neg h1, if_neg h2, if_neg h3, if_neg h4,
                      if_neg h5, if_neg h6, if_neg h7, if_pos h8]
                  rw [hesc]
                  simp only [List.cons_append]
                  rw [parse_u_single c.toNat (by omega) (by omega) (by omega) rest,
                    Char.ofNat_toNat]
                · by_cases h9 : c.toNat ≤ 0x7e
                  · have hesc : escapeChar c = [c] := by
                      simp only [escapeChar, if_neg h1, if_neg h2, if_neg h3, if_neg h4,
                        if_neg h5, if_neg h6, if_neg h7, if_neg h8, if_pos h9]
                    rw [hesc]
                    simp only [List.cons_append, List.nil_append]
                    exact parse_literal c h1 h2 h8 rest
                  · by_cases h10 : c.toNat ≤ 0xffff
                    · have hval := char_valid_toNat c
                      have hesc : escapeChar c = '\\' :: 'u' :: natToHex4 c.toNat := by
                        simp only [escapeChar, if_neg h1, if_neg h2, if_neg h3, if_neg h4,
                          if_neg h5, if_neg h6, if_neg h7, if_neg h8, if_neg h9, if_pos h10]
                      rw [hesc]
                      simp only [List.cons_append]
                      rw [parse_u_single c.toNat (by omega) (by omega) (by omega) rest,
                        Char.ofNat_toNat]
                    · have hval := char_valid_toNat c
                      have hesc : escapeChar c =
                          '\\' :: 'u' :: natToHex4 (0xd800 + (c.toNat - 0x10000) / 0x400) ++
                            '\\' :: 'u' :: natToHex4 (0xdc00 + (c.toNat - 0x10000) % 0x400) := by
                        simp only [escapeChar, if_neg h1, if_neg h2, if_neg h3, if_neg h4,
                          if_neg h5, if_neg h6, if_neg h7, if_neg h8, if_neg h9, if_neg h10]
                      rw [hesc]
                      have hmod : (c.toNat - 0x10000) % 0x400 < 0x400 :=
                        Nat.mod_lt _ (by norm_num)
                      have hdivlt : (c.toNat - 0x10000) / 0x400 < 0x400 := by
                        have : c.toNat - 0x10000 < 0x100000 := by omega
                        omega
                      simp only [List.cons_append, List.append_assoc]
                      rw [parse_u_pair (0xd800 + (c.toNat - 0x10000) / 0x400)
                        (0xdc00 + (c.toNat - 0x10000) % 0x400) (by omega) (by omega)
                        (by omega) (by omega) rest]
                      have harith : 0x10000 +
                          (0xd800 + (c.toNat - 0x10000) / 0x400 - 0xd800) * 0x400 +
                          (0xdc00 + (c.toNat - 0x10000) % 0x400 - 0xdc00) = c.toNat := by
                        omega
                      rw [harith, Char.ofNat_toNat]

lemma length_serEntries : ∀ ft : List (Char × Nat), ft.length ≤ (serEntries ft).length := by
  intro ft
  induction ft with
  | nil => simp [serEntries]
  | cons p t ih =>
    cases t with
    | nil => simp [serEntries, serEntry]
    | cons q ts =>
      simp only [serEntries, serEntry] at *
      simp only [List.length_cons, List.length_append, List.length_cons] at *
      omega

lemma parsePairs_serEntries : ∀ (ft : List (Char × Nat)) (fuel : Nat), ft ≠ [] →
    ft.length ≤ fuel → parsePairs fuel (serEntries ft ++ ['}']) = some ft := by
  intro ft
  induction ft with
  | nil => intro fuel h; exact absurd rfl h
  | cons p t ih =>
    intro fuel _ hlen
    obtain ⟨k, v⟩ := p
    cases fuel with
    | zero => simp at hlen
    | succ f =>
      cases t with
      | nil =>
        have hlist : serEntries [(k, v)] ++ ['}'] =
            '"' :: (escapeChar k ++ ('"' :: ':' :: ' ' :: (natToDec v ++ ['}']))) := by
          simp [serEntries, serEntry]
        rw [hlist]
        simp only [parsePairs]
        rw [if_pos trivial, parseEscChar_escapeChar k ('"' :: ':' :: ' ' :: (natToDec v ++ ['}']))]
        dsimp only
        rw [if_pos ⟨rfl, rfl, rfl⟩, parseNatTok_natToDec v ['}'] (by decide)]
        dsimp only
        rw [if_neg (by decide), if_pos ⟨rfl, rfl⟩]
      | cons q ts =>
        have hlist : serEntries ((k, v) :: q :: ts) ++ ['}'] =
            '"' :: (escapeChar k ++ ('"' :: ':' :: ' ' ::
              (natToDec v ++ (',' :: ' ' :: (serEntries (q :: ts) ++ ['}']))))) := by
          simp [serEntries, serEntry]
        rw [hlist]
        simp only [parsePairs]
        rw [if_pos trivial, parseEscChar_escapeChar k
          ('"' :: ':' :: ' ' :: (natToDec v ++ (',' :: ' ' :: (serEntries (q :: ts) ++ ['}']))))]
        dsimp only
        rw [if_pos ⟨rfl, rfl, rfl⟩, parseNatTok_natToDec v
          (',' :: ' ' :: (serEntries (q :: ts) ++ ['}'])) (by simp [List.takeWhile_cons])]
        dsimp only
        rw [if_pos rfl, if_pos rfl, ih f (by simp) (by simp at hlen ⊢; omega)]

lemma natToHex4_byte (n : Nat) (x : Char) (hx : x ∈ natToHex4 n) :
    x.toNat ≠ 10 ∧ x.toNat < 128 := by
  simp only [natToHex4, List.mem_cons, List.not_mem_nil, or_false] at hx
  rcases hx with h | h | h | h <;>
    (subst h; exact hexDigitChar_byte _ (Nat.mod_lt _ (by norm_num)))

lemma escapeChar_byte (c : Char) : ∀ x ∈ escapeChar c, x.toNat ≠ 10 ∧ x.toNat < 128 := by
  intro x hx
  unfold escapeChar at hx
  split at hx
  · fin_cases hx <;> decide
  · split at hx
    · fin_cases hx <;> decide
    · split at hx
      · fin_cases hx <;> decide
      · split at hx
        · fin_cases hx <;> decide
        · split at hx
          · fin_cases hx <;> decide
          · split at hx
            · fin_cases hx <;> decide
            · split at hx
              · fin_cases hx <;> decide
              · split at hx
                · simp only [List.mem_cons] at hx
                  rcases hx with h | h | h
                  · subst h; decide
                  · subst h; decide
                  · exact natToHex4_byte _ x h
                · split at hx
                  · rename_i h1 h2 h3 h4 h5 h6 h7 h8 h9
                    simp only [List.mem_singleton] at hx
                    subst hx
                    constructor
                    · intro hEq
                      exact h8 (by omega)
                    · omega
                  · split at hx
                    · simp only [List.mem_cons] at hx
                      rcases hx with h | h | h
                      · subst h; decide
                      · subst h; decide
                      · exact natToHex4_byte _ x h
                    · rcases List.mem_cons.1 hx with h | h
                      · subst h; decide
                      rcases List.mem_cons.1 h with h2 | h2
                      · subst h2; decide
                      rcases List.mem_append.1 h2 with h3 | h3
                      · exact natToHex4_byte _ x h3
                      rcases List.mem_cons.1 h3 with h4 | h4
                      · subst h4; decide
                      rcases List.mem_cons.1 h4 with h5 | h5
                      · subst h5; decide
                      exact natToHex4_byte _ x h5

lemma natToDec_byte (n : Nat) (x : Char) (hx : x ∈ natToDec n) :
    x.toNat ≠ 10 ∧ x.toNat < 128 := by
  obtain ⟨d, hd, hxd⟩ := natToDec_digits n x hx
  subst hxd
  exact digitChar_byte d hd

lemma serEntry_byte (p : Char × Nat) : ∀ x ∈ serEntry p, x.toNat ≠ 10 ∧ x.toNat < 128 := by
  intro x hx
  rw [serEntry] at hx
  rcases List.mem_cons.1 hx with h | h
  · subst h; decide
  rcases List.mem_append.1 h with h2 | h2
  · exact escapeChar_byte p.1 x h2
  rcases List.mem_cons.1 h2 with h3 | h3
  · subst h3; decide
  rcases List.mem_cons.1 h3 with h4 | h4
  · subst h4; decide
  rcases List.mem_cons.1 h4 with h5 | h5
  · subst h5; decide
  exact natToDec_byte p.2 x h5

lemma serEntries_byte : ∀ ft : List (Char × Nat), ∀ x ∈ serEntries ft,
    x.toNat ≠ 10 ∧ x.toNat < 128 := by
  intro ft
  induction ft with
  | nil => intro x hx; simp [serEntries] at hx
  | cons p t ih =>
    intro x hx
    cases t with
    | nil =>
      rw [serEntries] at hx
      exact serEntry_byte p x hx
    | cons q ts =>
      rw [serEntries] at hx
      rcases List.mem_append.1 hx with h | h
      · exact serEntry_byte p x h
      rcases List.mem_cons.1 h with h2 | h2
      · subst h2; decide
      rcases List.mem_cons.1 h2 with h3 | h3
      · subst h3; decide
      exact ih x h3

lemma serializeFreq_byte (ft : List (Char × Nat)) : ∀ x ∈ serializeFreq ft,
    x.toNat ≠ 10 ∧ x.toNat < 128 := by
  intro x hx
  rw [serializeFreq] at hx
  rcases List.mem_cons.1 hx with h | h
  · subst h; decide
  rcases List.mem_append.1 h with h2 | h2
  · exact serEntries_byte ft x h2
  rcases List.mem_singleton.1 h2 with h3
  subst h3; decide

lemma serEntries_head (k : Char) (v : Nat) (t : List (Char × Nat)) :
    ∃ R, serEntries ((k, v) :: t) = '"' :: R := by
  cases t with
  | nil => exact ⟨escapeChar k ++ '"' :: ':' :: ' ' :: natToDec v, rfl⟩
  | cons q ts =>
    exact ⟨(escapeChar k ++ '"' :: ':' :: ' ' :: natToDec v) ++
      ',' :: ' ' :: serEntries (q :: ts), rfl⟩

lemma parseFreqChars_serializeFreq (ft : List (Char × Nat)) (hne : ft ≠ []) :
    parseFreqChars (serializeFreq ft) = some ft := by
  match ft, hne with
  | (k, v) :: t, _ =>
    obtain ⟨R, hR⟩ := serEntries_head k v t
    have hop : serializeFreq ((k, v) :: t) = '{' :: '"' :: (R ++ ['}']) := by
      simp [serializeFreq, hR]
    rw [hop]
    simp only [parseFreqChars]
    rw [if_pos trivial, if_neg (by simp)]
    have hback : '"' :: (R ++ ['}']) = serEntries ((k, v) :: t) ++ ['}'] := by
      simp [hR]
    rw [hback]
    apply parsePairs_serEntries ((k, v) :: t) _ (by simp)
    have h1 := length_serEntries ((k, v) :: t)
    simp only [List.length_append, List.length_cons, List.length_nil] at h1 ⊢
    omega

lemma parseFreqBytes_serializeFreq (ft : List (Char × Nat)) (hne : ft ≠ []) :
    parseFreqBytes ((serializeFreq ft).map Char.toNat) = some ft := by
  unfold parseFreqBytes
  rw [if_pos]
  · have hmap : ((serializeFreq ft).map Char.toNat).map (fun b => Char.ofNat b) =
        serializeFreq ft := by
      rw [List.map_map]
      have : (serializeFreq ft).map ((fun b => Char.ofNat b) ∘ Char.toNat) =
          (serializeFreq ft).map id := by
        apply List.map_congr_left
        intro c _
        exact Char.ofNat_toNat c
      rw [this, List.map_id]
    rw [hmap]
    exact parseFreqChars_serializeFreq ft hne
  · rw [List.all_eq_true]
    intro b hb
    obtain ⟨c, hc, hcb⟩ := List.mem_map.1 hb
    subst hcb
    have := (serializeFreq_byte ft c hc).2
    exact decide_eq_true this

/-! ### Main codec lemmas -/

lemma padded_mod8 (e : List Char) : (build_padded_text e).length % 8 = 0 := by
  rw [length_build_padded_text]
  omega

lemma padded_ne_nil (e : List Char) : build_padded_text e ≠ [] := by
  intro h
  have := congrArg List.length h
  rw [length_build_padded_text] at this
  simp at this

lemma joinLeaves_leaves (ft : List (Char × Nat)) :
    joinLeaves (ft.map fun p => BTree.leaf p.1 p.2) = ft.map Prod.fst := by
  induction ft with
  | nil => rfl
  | cons p t ih => simp [joinLeaves, leafValues] at ih ⊢; exact ih

lemma heappop_single (t : BTree) : heappop [t] = some (t, []) := rfl

lemma final_heap (ft : List (Char × Nat)) (hne : ft ≠ []) :
    ∃ root, build_binary_tree (build_heap ft) = [root] ∧
      List.Perm (leafValues root) (ft.map Prod.fst) := by
  have hlen1 : (build_heap ft).length = ft.length := by
    have := (heapify_perm (ft.map fun p => BTree.leaf p.1 p.2)).length_eq
    simp only [build_heap]
    rw [this]
    simp
  have hftpos : 1 ≤ ft.length := by
    cases ft with
    | nil => exact absurd rfl hne
    | cons p t => simp
  have hlenfin : (build_binary_tree (build_heap ft)).length = 1 := by
    unfold build_binary_tree
    apply buildTreeLoop_length
    · omega
    · omega
  obtain ⟨root, hroot⟩ : ∃ root, build_binary_tree (build_heap ft) = [root] := by
    match hfin : build_binary_tree (build_heap ft), hlenfin with
    | [root], _ => exact ⟨root, rfl⟩
  refine ⟨root, hroot, ?_⟩
  have hjl : List.Perm (joinLeaves (build_binary_tree (build_heap ft)))
      (joinLeaves (build_heap ft)) := buildTreeLoop_joinLeaves _ _
  rw [hroot] at hjl
  have hjl2 : List.Perm (joinLeaves (build_heap ft))
      (joinLeaves (ft.map fun p => BTree.leaf p.1 p.2)) := heapify_joinLeaves _
  rw [joinLeaves_leaves] at hjl2
  have : joinLeaves [root] = leafValues root := by simp [joinLeaves]
  rw [this] at hjl
  exact hjl.trans hjl2

lemma tables_of_root (ft : List (Char × Nat)) (root : BTree)
    (hperm : List.Perm (leafValues root) (ft.map Prod.fst))
    (hnd : (ft.map Prod.fst).Nodup) :
    build_tree_code_helper root [] ([], []) =
      (leafCodes root [], (leafCodes root []).map fun p => (p.2, p.1)) := by
  have hlv : (leafValues root).Nodup := hperm.nodup_iff.2 hnd
  have hfst : ((leafCodes root []).map Prod.fst).Nodup := by
    rw [map_fst_leafCodes]
    exact hlv
  have hsnd : (((leafCodes root []).map fun p => (p.2, p.1)).map Prod.fst).Nodup := by
    rw [List.map_map]
    exact nodup_snd_leafCodes root []
  rw [build_tree_code_helper_eq]
  rw [insertAll_nil _ hfst, insertAll_nil _ (by rw [List.map_map] at hsnd ⊢; exact hsnd)]

lemma compressFrom_eq_compress (st : CodeDict × RevDict) (d : List Char) :
    compressFrom st d = compress d := by
  unfold compress compressFrom
  by_cases hd : rstrip d = []
  · rw [if_pos hd, if_pos hd]
  · rw [if_neg hd, if_neg hd]
    dsimp only
    have hne : frequency_from_text (rstrip d) ≠ [] := freq_ne_nil _ hd
    have hnd : ((frequency_from_text (rstrip d)).map Prod.fst).Nodup := nodup_keys_freq _
    obtain ⟨root, hroot, hperm⟩ := final_heap (frequency_from_text (rstrip d)) hne
    have hpop : heappop (build_binary_tree (build_heap (frequency_from_text (rstrip d)))) =
        some (root, []) := by rw [hroot]; exact heappop_single root
    rw [hpop]
    dsimp only
    rw [build_tree_code_helper_eq root [] st, build_tree_code_helper_eq root [] ([], [])]
    dsimp only
    have hcongr : build_encoded_text (insertAll st.1 (leafCodes root [])) (rstrip d) =
        build_encoded_text (insertAll [] (leafCodes root [])) (rstrip d) := by
      apply build_encoded_text_congr
      intro c hc
      have hck : c ∈ (frequency_from_text (rstrip d)).map Prod.fst :=
        (mem_keys_freq _ c).2 hc
      have hcl : c ∈ leafValues root := hperm.mem_iff.2 hck
      have hcp : c ∈ (leafCodes root []).map Prod.fst := by
        rw [map_fst_leafCodes]
        exact hcl
      obtain ⟨b, hb⟩ := dictGet_isSome_of_mem_keys _ c hcp
      have hfstnd : ((leafCodes root []).map Prod.fst).Nodup := by
        rw [map_fst_leafCodes]
        exact hperm.nodup_iff.2 hnd
      have hbmem : (c, b) ∈ leafCodes root [] := dictGet_mem _ c b hb
      rw [dictGet_insertAll_mem _ c b hfstnd hbmem st.1,
        dictGet_insertAll_mem _ c b hfstnd hbmem []]
    rw [hcongr]

lemma compress_ok (d : List Char) (h1 : rstrip d = d) (h2 : d ≠ []) :
    ∃ root e,
      build_binary_tree (build_heap (frequency_from_text d)) = [root] ∧
      List.Perm (leafValues root) ((frequency_from_text d).map Prod.fst) ∧
      build_encoded_text (leafCodes root []) d = some e ∧
      (∀ c ∈ e, c = '0' ∨ c = '1') ∧
      compress d = Except.ok ((serializeFreq (frequency_from_text d)).map Char.toNat ++
        10 :: build_byte_array (build_padded_text e)) := by
  have hne : frequency_from_text d ≠ [] := freq_ne_nil d h2
  have hnd : ((frequency_from_text d).map Prod.fst).Nodup := nodup_keys_freq d
  obtain ⟨root, hroot, hperm⟩ := final_heap (frequency_from_text d) hne
  have hsome : ∀ c ∈ d, ∃ b, dictGet (leafCodes root []) c = some b := by
    intro c hc
    apply dictGet_isSome_of_mem_keys
    rw [map_fst_leafCodes]
    exact hperm.mem_iff.2 ((mem_keys_freq d c).2 hc)
  obtain ⟨e, he⟩ := build_encoded_text_isSome (leafCodes root []) d hsome
  have hebin : ∀ c ∈ e, c = '0' ∨ c = '1' := by
    apply build_encoded_text_binary (leafCodes root []) _ d e he
    intro p hp c hc
    obtain ⟨pv, pb⟩ := p
    exact binary_of_mem_leafCodes root [] pv pb (by simp) hp c hc
  refine ⟨root, e, hroot, hperm, he, hebin, ?_⟩
  unfold compress compressFrom
  rw [h1, if_neg h2]
  dsimp only
  have hpop : heappop (build_binary_tree (build_heap (frequency_from_text d))) =
      some (root, []) := by rw [hroot]; exact heappop_single root
  rw [hpop]
  dsimp only
  rw [tables_of_root _ root hperm hnd]
  dsimp only
  rw [he]

lemma decompress_ok (d : List Char) (h1 : rstrip d = d) (h2 : d ≠ []) (root : BTree)
    (e : List Char)
    (hroot : build_binary_tree (build_heap (frequency_from_text d)) = [root])
    (hperm : List.Perm (leafValues root) ((frequency_from_text d).map Prod.fst))
    (he : build_encoded_text (leafCodes root []) d = some e)
    (hebin : ∀ c ∈ e, c = '0' ∨ c = '1') :
    decompress ((serializeFreq (frequency_from_text d)).map Char.toNat ++
      10 :: build_byte_array (build_padded_text e)) = Except.ok d := by
  have hne : frequency_from_text d ≠ [] := freq_ne_nil d h2
  have hnd : ((frequency_from_text d).map Prod.fst).Nodup := nodup_keys_freq d
  have hmeta10 : ∀ b ∈ (serializeFreq (frequency_from_text d)).map Char.toNat,
      (fun b => decide (b ≠ 10)) b = true := by
    intro b hb
    obtain ⟨c, hc, hcb⟩ := List.mem_map.1 hb
    subst hcb
    exact decide_eq_true (serializeFreq_byte _ c hc).1
  unfold decompress
  dsimp only
  rw [takeWhile_append_all _ _ _ hmeta10]
  have htw0 : (10 :: build_byte_array (build_padded_text e)).takeWhile
      (fun b => decide (b ≠ 10)) = [] := by
    simp [List.takeWhile_cons]
  rw [htw0, List.append_nil, parseFreqBytes_serializeFreq _ hne]
  dsimp only
  have hpop : heappop (build_binary_tree (build_heap (frequency_from_text d))) =
      some (root, []) := by rw [hroot]; exact heappop_single root
  rw [hpop]
  dsimp only
  rw [tables_of_root _ root hperm hnd]
  dsimp only
  rw [dropWhile_append_all _ _ _ hmeta10]
  have hdw0 : (10 :: build_byte_array (build_padded_text e)).dropWhile
      (fun b => decide (b ≠ 10)) = 10 :: build_byte_array (build_padded_text e) := by
    simp [List.dropWhile_cons]
  rw [hdw0]
  simp only [List.drop_succ_cons, List.drop_zero]
  have hpbin := build_padded_text_binary e hebin
  have hflat : ((build_byte_array (build_padded_text e)).map (natToBits 8)).flatten =
      build_padded_text e := by
    unfold build_byte_array
    exact byteArrayAux_flatten _ _ (le_refl _) hpbin (padded_mod8 e)
  rw [hflat, if_neg (padded_ne_nil e), remove_padding_build e hebin]
  have hlv : (leafValues root).Nodup := hperm.nodup_iff.2 hnd
  have hfst : ((leafCodes root []).map Prod.fst).Nodup := by
    rw [map_fst_leafCodes]; exact hlv
  have hdec := decode_encode_append (leafCodes root []) hfst
    (nodup_snd_leafCodes root []) (pairwise_leafCodes root [])
    (by
      intro p hp
      obtain ⟨pv, pb⟩ := p
      exact code_ne_nil_of_mem_leafCodes root [] pv pb hp)
    d e he []
  unfold decode_text
  rw [show e ++ ([] : List Char) = e from by simp] at hdec
  rw [hdec]
  simp [decodeGo]

lemma roundtrip (d : List Char) (h1 : rstrip d = d) (h2 : d ≠ []) :
    ∃ a, compress d = Except.ok a ∧ decompress a = Except.ok d := by
  obtain ⟨root, e, hroot, hperm, he, hebin, hc⟩ := compress_ok d h1 h2
  exact ⟨_, hc, decompress_ok d h1 h2 root e hroot hperm he hebin⟩

lemma huffmanTables_eq (ft : List (Char × Nat)) (hne : ft ≠ [])
    (hnd : (ft.map Prod.fst).Nodup) :
    ∃ root, List.Perm (leafValues root) (ft.map Prod.fst) ∧
      huffmanTables ft =
        some (leafCodes root [], (leafCodes root []).map fun p => (p.2, p.1)) := by
  obtain ⟨root, hroot, hperm⟩ := final_heap ft hne
  refine ⟨root, hperm, ?_⟩
  unfold huffmanTables
  rw [show heappop (build_binary_tree (build_heap ft)) = some (root, []) by
    rw [hroot]; exact heappop_single root]
  dsimp only
  rw [tables_of_root ft root hperm hnd]

lemma freqStep_single (c : Char) (k : Nat) : freqStep [(c, k)] c = [(c, k + 1)] := by
  simp [freqStep, dictGet, dictSet]

lemma freq_replicate_aux (c : Char) : ∀ (m k : Nat),
    (List.replicate m c).foldl freqStep [(c, k)] = [(c, k + m)] := by
  intro m
  induction m with
  | zero => intro k; simp
  | succ m ih =>
    intro k
    rw [List.replicate_succ, List.foldl_cons, freqStep_single, ih (k + 1)]
    have : k + 1 + m = k + (m + 1) := by omega
    rw [this]

lemma freq_replicate (c : Char) (n : Nat) (hn : 0 < n) :
    frequency_from_text (List.replicate n c) = [(c, n)] := by
  match n, hn with
  | m + 1, _ =>
    unfold frequency_from_text
    rw [List.replicate_succ, List.foldl_cons]
    have h0 : freqStep [] c = [(c, 1)] := by simp [freqStep, dictGet, dictSet]
    rw [h0, freq_replicate_aux c m 1]
    have : 1 + m = m + 1 := by omega
    rw [this]

lemma heapify_singleton (t : BTree) : heapify [t] = [t] := by
  unfold heapify
  norm_num

lemma build_heap_singleton (c : Char) (n : Nat) :
    build_heap [(c, n)] = [BTree.leaf c n] := by
  unfold build_heap
  rw [show ([(c, n)].map fun p => BTree.leaf p.1 p.2) = [BTree.leaf c n] from rfl]
  exact heapify_singleton _

lemma single_tables (c : Char) (n : Nat) :
    heappop (build_binary_tree (build_heap [(c, n)])) = some (BTree.leaf c n, []) ∧
      huffmanTables [(c, n)] = some ([(c, ['0'])], [(['0'], c)]) := by
  constructor
  · rw [build_heap_singleton]
    exact rfl
  · unfold huffmanTables
    rw [build_heap_singleton]
    exact rfl

lemma replicate_ne_nil (c : Char) (n : Nat) (hn : 0 < n) : List.replicate n c ≠ [] := by
  intro h
  have := congrArg List.length h
  simp at this
  omega

lemma compress_empty (d : List Char) (h : rstrip d = []) :
    compress d = Except.error "Error: Input file is empty!" := by
  unfold compress compressFrom
  rw [h]
  exact rfl

/-! ### Claim theorems -/

/-- C1: for every non-empty document (already trimmed of trailing whitespace),
running `compress` on it and `decompress` on the produced artifact yields the
document back, byte for byte. -/
theorem c1_round_trip (d : List Char) (h1 : rstrip d = d) (h2 : d ≠ []) :
    ∃ a, compress d = Except.ok a ∧ decompress a = Except.ok d :=
  roundtrip d h1 h2

/-- Witness for C1 at the concrete document "ab". -/
theorem c1_round_trip_witness :
    ∃ a, compress ['a', 'b'] = Except.ok a ∧ decompress a = Except.ok ['a', 'b'] :=
  c1_round_trip ['a', 'b'] (by decide) (by decide)

/-- C2 counterexample: an artifact whose payload ends in the partial,
non-matching bit "1" (the reverse table of the one-symbol alphabet maps only
"0") is decompressed to a successful result instead of an error: the
unmatched trailing buffer is silently dropped. -/
theorem c2_counterexample :
    decompress ((serializeFreq [('a', 1)]).map Char.toNat ++ [10, 6, 64]) =
        Except.ok ['a'] ∧
      huffmanTables [('a', 1)] = some ([('a', ['0'])], [(['0'], 'a')]) ∧
      dictGet [(['0'], 'a')] ['1'] = none :=
  ⟨rfl, rfl, rfl⟩

/-- C2 amended: when the bit stream handed to the decode step is an encoded
document followed by a non-empty tail whose growing buffer never matches a
Reverse Code Table key, the decode step returns the symbols decoded before
the tail and silently discards the buffer; no error is raised. -/
theorem c2_decode_drops_unmatched_tail (ft : List (Char × Nat)) (code : CodeDict)
    (rev : RevDict) (text e tail : List Char) (hne : ft ≠ [])
    (hnd : (ft.map Prod.fst).Nodup) (ht : huffmanTables ft = some (code, rev))
    (henc : build_encoded_text code text = some e) (htne : tail ≠ [])
    (hnomatch : ∀ i, i < tail.length → dictGet rev (tail.take (i + 1)) = none) :
    decode_text rev (e ++ tail) = text := by
  obtain ⟨root, hperm, htab⟩ := huffmanTables_eq ft hne hnd
  rw [ht] at htab
  injection htab with htab
  injection htab with hcode hrev
  subst hcode
  subst hrev
  have hlv : (leafValues root).Nodup := hperm.nodup_iff.2 hnd
  have hfst : ((leafCodes root []).map Prod.fst).Nodup := by
    rw [map_fst_leafCodes]; exact hlv
  have hdec := decode_encode_append (leafCodes root []) hfst
    (nodup_snd_leafCodes root []) (pairwise_leafCodes root [])
    (by
      intro p hp
      obtain ⟨pv, pb⟩ := p
      exact code_ne_nil_of_mem_leafCodes root [] pv pb hp)
    text e henc tail
  unfold decode_text
  rw [hdec]
  have hzero := decodeGo_no_match ((leafCodes root []).map fun p => (p.2, p.1)) tail []
    (by
      intro i hi
      have := hnomatch i hi
      simpa using this)
  rw [hzero, List.append_nil]

/-- Witness for the amended C2 with alphabet {a}, document "a" and the
unmatched trailing bit "1". -/
theorem c2_decode_drops_unmatched_tail_witness :
    decode_text [(['0'], 'a')] (['0'] ++ ['1']) = ['a'] :=
  c2_decode_drops_unmatched_tail [('a', 1)] [('a', ['0'])] [(['0'], 'a')]
    ['a'] ['0'] ['1'] (by decide) (by decide) (by decide) (by decide) (by decide)
    (by decide)

/-- C3: for every non-empty Frequency Table, the generated Code Table is
prefix-free (no code is a proper prefix of another) and the Reverse Code
Table has exactly the same cardinality as the Code Table. -/
theorem c3_prefix_free_and_cardinality (ft : List (Char × Nat)) (hne : ft ≠ [])
    (hnd : (ft.map Prod.fst).Nodup) :
    ∃ code rev, huffmanTables ft = some (code, rev) ∧
      (∀ p ∈ code.map Prod.snd, ∀ q ∈ code.map Prod.snd, p ≠ q → ¬ p <+: q) ∧
      rev.length = code.length := by
  obtain ⟨root, hperm, ht⟩ := huffmanTables_eq ft hne hnd
  refine ⟨_, _, ht, ?_, by simp⟩
  intro p hp q hq hpq
  obtain ⟨pp, hpp, hppe⟩ := List.mem_map.1 hp
  obtain ⟨qq, hqq, hqqe⟩ := List.mem_map.1 hq
  subst hppe
  subst hqqe
  have hqne : pp ≠ qq := fun hEq => hpq (by rw [hEq])
  have hsymm : Symmetric
      (fun p q : Char × List Char => ¬ p.2 <+: q.2 ∧ ¬ q.2 <+: p.2) :=
    fun a b h => ⟨h.2, h.1⟩
  exact (List.Pairwise.forall hsymm (pairwise_leafCodes root []) hpp hqq hqne).1

/-- Witness for C3 at the Frequency Table of the document "aab". -/
theorem c3_prefix_free_and_cardinality_witness :
    ∃ code rev, huffmanTables [('a', 2), ('b', 1)] = some (code, rev) ∧
      (∀ p ∈ code.map Prod.snd, ∀ q ∈ code.map Prod.snd, p ≠ q → ¬ p <+: q) ∧
      rev.length = code.length :=
  c3_prefix_free_and_cardinality [('a', 2), ('b', 1)] (by decide) (by decide)

/-- C4: the pad value stored in the 8-bit header always equals
(8 - L mod 8) mod 8 for the encoded bit length L, exactly that many zero
bits are appended after the encoded bits, and L plus the pad is a multiple
of 8 (so a length already divisible by 8 gets pad 0 and no pad bits). -/
theorem c4_padding_correct (e : List Char) :
    build_padded_text e = natToBits 8 ((8 - e.length % 8) % 8) ++ e ++
        List.replicate ((8 - e.length % 8) % 8) '0' ∧
      bitsToNat ((build_padded_text e).take 8) = (8 - e.length % 8) % 8 ∧
      (e.length + (8 - e.length % 8) % 8) % 8 = 0 ∧
      (e.length % 8 = 0 → build_padded_text e = natToBits 8 0 ++ e) := by
  refine ⟨rfl, build_padded_text_header e, by omega, ?_⟩
  intro h0
  unfold build_padded_text
  rw [h0]
  simp

/-- Witness for C4 at an encoded text of five bits. -/
theorem c4_padding_correct_witness :
    build_padded_text ['1', '0', '1', '1', '0'] =
        natToBits 8 ((8 - (['1', '0', '1', '1', '0'] : List Char).length % 8) % 8) ++
          ['1', '0', '1', '1', '0'] ++
          List.replicate ((8 - (['1', '0', '1', '1', '0'] : List Char).length % 8) % 8) '0' ∧
      bitsToNat ((build_padded_text ['1', '0', '1', '1', '0']).take 8) =
        (8 - (['1', '0', '1', '1', '0'] : List Char).length % 8) % 8 ∧
      ((['1', '0', '1', '1', '0'] : List Char).length +
        (8 - (['1', '0', '1', '1', '0'] : List Char).length % 8) % 8) % 8 = 0 ∧
      ((['1', '0', '1', '1', '0'] : List Char).length % 8 = 0 →
        build_padded_text ['1', '0', '1', '1', '0'] = natToBits 8 0 ++ ['1', '0', '1', '1', '0']) :=
  c4_padding_correct ['1', '0', '1', '1', '0']

/-- C5: when the 8-bit pad header of a bit stream decodes to p and the
stream holds at least p bits after the header, the unpadding step strips
exactly p trailing bits after removing the header, and strips none when p
is zero. -/
theorem c5_remove_padding_strips (text : List Char)
    (h : 8 + bitsToNat (text.take 8) ≤ text.length) :
    remove_padding text =
        (text.drop 8).take ((text.drop 8).length - bitsToNat (text.take 8)) ∧
      (remove_padding text).length + bitsToNat (text.take 8) = (text.drop 8).length ∧
      (bitsToNat (text.take 8) = 0 → remove_padding text = text.drop 8) := by
  refine ⟨remove_padding_eq text h, remove_padding_length text h, ?_⟩
  intro h0
  unfold remove_padding
  rw [if_pos h0]

/-- Witness for C5 at a sixteen-bit stream whose header decodes to 3. -/
theorem c5_remove_padding_strips_witness :
    remove_padding (natToBits 8 3 ++ ['1', '0', '1', '1', '0', '0', '0', '0']) =
        (((natToBits 8 3 ++ ['1', '0', '1', '1', '0', '0', '0', '0']) : List Char).drop 8).take
          ((((natToBits 8 3 ++ ['1', '0', '1', '1', '0', '0', '0', '0']) : List Char).drop 8).length -
            bitsToNat (((natToBits 8 3 ++ ['1', '0', '1', '1', '0', '0', '0', '0']) : List Char).take 8)) ∧
      (remove_padding (natToBits 8 3 ++ ['1', '0', '1', '1', '0', '0', '0', '0'])).length +
          bitsToNat (((natToBits 8 3 ++ ['1', '0', '1', '1', '0', '0', '0', '0']) : List Char).take 8) =
        (((natToBits 8 3 ++ ['1', '0', '1', '1', '0', '0', '0', '0']) : List Char).drop 8).length ∧
      (bitsToNat (((natToBits 8 3 ++ ['1', '0', '1', '1', '0', '0', '0', '0']) : List Char).take 8) = 0 →
        remove_padding (natToBits 8 3 ++ ['1', '0', '1', '1', '0', '0', '0', '0']) =
          ((natToBits 8 3 ++ ['1', '0', '1', '1', '0', '0', '0', '0']) : List Char).drop 8) :=
  c5_remove_padding_strips (natToBits 8 3 ++ ['1', '0', '1', '1', '0', '0', '0', '0']) (by decide)

/-- C6: a document over an alphabet of exactly one distinct symbol yields
the single leaf as tree root, the one-entry Code Table assigning the
non-empty code "0", and round-trips through compress and decompress. -/
theorem c6_single_symbol (c : Char) (n : Nat) (hn : 0 < n)
    (hr : rstrip (List.replicate n c) = List.replicate n c) :
    heappop (build_binary_tree (build_heap (frequency_from_text (List.replicate n c)))) =
        some (BTree.leaf c n, []) ∧
      huffmanTables (frequency_from_text (List.replicate n c)) =
        some ([(c, ['0'])], [(['0'], c)]) ∧
      ∃ a, compress (List.replicate n c) = Except.ok a ∧
        decompress a = Except.ok (List.replicate n c) := by
  have hfreq := freq_replicate c n hn
  rw [hfreq]
  exact ⟨(single_tables c n).1, (single_tables c n).2,
    roundtrip _ hr (replicate_ne_nil c n hn)⟩

/-- Witness for C6 at the document "aaaa". -/
theorem c6_single_symbol_witness :
    heappop (build_binary_tree (build_heap (frequency_from_text (List.replicate 4 'a')))) =
        some (BTree.leaf 'a' 4, []) ∧
      huffmanTables (frequency_from_text (List.replicate 4 'a')) =
        some ([('a', ['0'])], [(['0'], 'a')]) ∧
      ∃ a, compress (List.replicate 4 'a') = Except.ok a ∧
        decompress a = Except.ok (List.replicate 4 'a') :=
  c6_single_symbol 'a' 4 (by decide) (by decide)

/-- C7: a document that is empty after trimming trailing whitespace makes
compress fail with the empty-input error before any artifact bytes are
produced. -/
theorem c7_empty_input (d : List Char) (h : rstrip d = []) :
    compress d = Except.error "Error: Input file is empty!" :=
  compress_empty d h

/-- Witness for C7 at a whitespace-only document. -/
theorem c7_empty_input_witness :
    compress [' ', '\n'] = Except.error "Error: Input file is empty!" :=
  c7_empty_input [' ', '\n'] (by decide)

/-- C8: the artifact produced by compress depends only on the document
content; in particular two runs on the same content, even with different
leftover code-table state on the instance, produce byte-identical
artifacts. -/
theorem c8_deterministic (st1 st2 : CodeDict × RevDict) (d : List Char) :
    compressFrom st1 d = compressFrom st2 d :=
  (compressFrom_eq_compress st1 d).trans (compressFrom_eq_compress st2 d).symm

/-- Witness for C8 with a dirty instance state against a fresh one. -/
theorem c8_deterministic_witness :
    compressFrom ([('z', ['1', '1'])], [(['1', '1'], 'z')]) ['a', 'b'] =
      compressFrom ([], []) ['a', 'b'] :=
  c8_deterministic ([('z', ['1', '1'])], [(['1', '1'], 'z')]) ([], []) ['a', 'b']

/-- C9: packing a bitstring (pad header, pad bits, byte grouping) and then
expanding the bytes back to bits and removing the padding restores the
bitstring exactly. -/
theorem c9_pack_unpack (s : List Char) (hb : ∀ c ∈ s, c = '0' ∨ c = '1') :
    remove_padding (((build_byte_array (build_padded_text s)).map (natToBits 8)).flatten) =
      s := by
  have hpbin := build_padded_text_binary s hb
  unfold build_byte_array
  rw [byteArrayAux_flatten _ _ (le_refl _) hpbin (padded_mod8 s)]
  exact remove_padding_build s hb

/-- Witness for C9 at the bitstring "101". -/
theorem c9_pack_unpack_witness :
    remove_padding
        (((build_byte_array (build_padded_text ['1', '0', '1'])).map (natToBits 8)).flatten) =
      ['1', '0', '1'] :=
  c9_pack_unpack ['1', '0', '1'] (by decide)

/-- C10: the serialized Frequency Table contains no raw newline byte, so
the scan of decompress up to the first newline byte recovers exactly the
serialized table, whatever the payload holds. -/
theorem c10_metadata_delimiter (ft : List (Char × Nat)) (payload : List Nat) :
    (((serializeFreq ft).map Char.toNat).all fun b => decide (b ≠ 10)) = true ∧
      ((serializeFreq ft).map Char.toNat ++ 10 :: payload).takeWhile
          (fun b => decide (b ≠ 10)) =
        (serializeFreq ft).map Char.toNat := by
  have hmeta : ∀ b ∈ (serializeFreq ft).map Char.toNat,
      (fun b => decide (b ≠ 10)) b = true := by
    intro b hb
    obtain ⟨c, hc, hcb⟩ := List.mem_map.1 hb
    subst hcb
    exact decide_eq_true (serializeFreq_byte ft c hc).1
  constructor
  · rw [List.all_eq_true]
    exact hmeta
  · rw [takeWhile_append_all _ _ _ hmeta]
    simp [List.takeWhile_cons]

/-- Witness for C10 at the table of the document "a" and a payload holding
a newline byte. -/
theorem c10_metadata_delimiter_witness :
    (((serializeFreq [('a', 1)]).map Char.toNat).all fun b => decide (b ≠ 10)) = true ∧
      ((serializeFreq [('a', 1)]).map Char.toNat ++ 10 :: [10, 7]).takeWhile
          (fun b => decide (b ≠ 10)) =
        (serializeFreq [('a', 1)]).map Char.toNat :=
  c10_metadata_delimiter [('a', 1)] [10, 7]

end Huffman
